import Mathlib

/-!
Verification of the write/representation core of the json-rust library:
the insertion-ordered string-keyed map (`src/object.rs`), the serialization
dispatch (`src/codegen/to_json.rs`) and the typestate writer
(`src/writer/mod.rs`), shallowly embedded in Lean.

Keys are modelled as byte sequences (`List Nat`); machine integers as `Nat`
with explicit reduction modulo `2 ^ 64` where the Rust code relies on
wrapping arithmetic.
-/

namespace JsonRust

/-- Byte strings (the contents of a `&[u8]` slice). -/
abbrev Bytes := List Nat

/-- `hash_key` from `object.rs`: FNV-1a over the key bytes with wrapping
64-bit multiplication (`hash.wrapping_mul(0x100000001b3)`). -/
def hash_key (key : Bytes) : Nat :=
  key.foldl (fun h b => (Nat.xor h b) * 0x100000001b3 % 2 ^ 64) 0xcbf29ce484222325

/-- `KEY_BUF_LEN` from `object.rs`: keys at or under this byte length are
stored inline in the node's buffer. -/
def KEY_BUF_LEN : Nat := 32

/-- What the cached raw pointer `Key.ptr` refers to: the inline buffer of the
owning record, a separately owned heap allocation, or nothing valid
(dangling, e.g. after the backing `Vec` reallocated and the record moved). -/
inductive Ptr where
  | inline
  | heap
  | dangling
deriving DecidableEq, Repr

/-- The `Key` struct from `object.rs`. `buf` models the 32-byte inline buffer
(only its first `len` bytes are meaningful), `heapBuf` the separately owned
heap allocation used for keys longer than `KEY_BUF_LEN`, and `ptr` the cached
raw pointer through which `as_bytes` reads. -/
structure Key where
  buf : Bytes
  len : Nat
  ptr : Ptr
  hash : Nat
  heapBuf : Bytes
deriving DecidableEq, Repr

namespace Key

/-- `Key::new`: only `len` and `hash` are initialised; `buf` and `ptr` hold
garbage until `attach` runs (modelled as an empty buffer and a dangling
pointer). -/
def new (hash len : Nat) : Key :=
  { buf := [], len := len, ptr := .dangling, hash := hash, heapBuf := [] }

/-- `Key::attach`: copy the key into the inline buffer when it fits
(caching a pointer to that buffer), otherwise move it to a fresh heap
allocation and cache a pointer to that. -/
def attach (k : Key) (key : Bytes) : Key :=
  if k.len ≤ KEY_BUF_LEN then
    { k with buf := key, ptr := .inline }
  else
    { k with heapBuf := key, ptr := .heap }

/-- `Key::fix_ptr`: after the backing storage relocated, re-cache the pointer
of a short (inline) key; heap-stored keys are unaffected. -/
def fix_ptr (k : Key) : Key :=
  if k.len ≤ KEY_BUF_LEN then { k with ptr := .inline } else k

/-- Effect of a `Vec` reallocation on a key: the owning record moved, so a
cached pointer into the record's own inline buffer dangles; a pointer to a
separate heap allocation stays valid. (This is the hazard `fix_ptr`
repairs; it is not a function in the Rust source but the semantics of the
reallocation the source comments describe.) -/
def relocate (k : Key) : Key :=
  match k.ptr with
  | .inline => { k with ptr := .dangling }
  | _ => k

/-- `Key::as_bytes`: read `len` bytes through the cached pointer. Reading
through a dangling pointer is undefined behaviour in the Rust source; the
model returns junk (the empty string) in that case. -/
def as_bytes (k : Key) : Bytes :=
  match k.ptr with
  | .inline => k.buf.take k.len
  | .heap => k.heapBuf.take k.len
  | .dangling => []

end Key

/-- The `Node` struct from `object.rs`: a key, the vector indices of the
left/right children (`0` is the "no child" sentinel, valid because the root
always lives at index `0`), and the stored value. -/
structure Node (V : Type) where
  key : Key
  left : Nat
  right : Nat
  value : V
deriving DecidableEq, Repr

/-- `Node::new`: fresh node with no children; the key is attached later. -/
def Node.new (V : Type) (value : V) (hash len : Nat) : Node V :=
  { key := Key.new hash len, left := 0, right := 0, value := value }

/-- A node as produced by `Node::new` followed by `key.attach(key)`. -/
def Node.mkAttached {V : Type} (value : V) (hash : Nat) (key : Bytes) : Node V :=
  { key := (Key.new hash key.length).attach key, left := 0, right := 0, value := value }

/-- `StrMap` from `object.rs`: a dense vector of nodes forming a hash-ordered
binary tree whose physical order is insertion order. `cap` models the
capacity of the backing `Vec` (it decides whether a push reallocates). -/
structure StrMap (V : Type) where
  store : List (Node V)
  cap : Nat
deriving DecidableEq, Repr

namespace StrMap

/-- `StrMap::new`. -/
def new (V : Type) : StrMap V := { store := [], cap := 0 }

/-- `StrMap::with_capacity`. -/
def with_capacity (V : Type) (capacity : Nat) : StrMap V :=
  { store := [], cap := capacity }

/-- Amortized-doubling growth of the backing `Vec` when a push exceeds the
capacity. The exact policy is internal to `std::vec::Vec`; none of the
verified properties depend on it, only on the fact that a reallocation
relocates every record (which `add_node` compensates for). -/
def grow_cap (cap len : Nat) : Nat := max (cap * 2) (len + 1)

variable {V : Type}

/-- Replace the node at `i` (used to model in-place field assignments such
as `self.store[parent].left = added`). -/
def modifyAt (store : List (Node V)) (i : Nat) (f : Node V → Node V) : List (Node V) :=
  match store[i]? with
  | some n => store.set i (f n)
  | none => store

/-- `StrMap::add_node`: append a node holding `key`/`value`/`hash` and return
its index (the old length). If the push fits in the current capacity the
existing records do not move; otherwise the `Vec` reallocates, every
existing record moves (dangling the cached inline-key pointers), and the
code re-runs `fix_ptr` on every previously stored node. -/
def add_node (m : StrMap V) (key : Bytes) (value : V) (hash : Nat) : StrMap V :=
  let index := m.store.length
  if index < m.cap then
    { m with store := m.store ++ [Node.mkAttached value hash key] }
  else
    { store :=
        (m.store.map fun n => { n with key := n.key.relocate.fix_ptr })
          ++ [Node.mkAttached value hash key],
      cap := grow_cap m.cap index }

/-- Result of the descent loop shared by `insert`, `get`, `get_mut` and
`remove`: the probe either finds the key at some index, or falls off the
tree at a node whose left (resp. right) child slot is empty, or runs out of
fuel (`stuck`, which corresponds to a descent longer than the number of
nodes --- impossible in a well-formed tree). -/
inductive Probe where
  | found (i : Nat)
  | goLeft (parent : Nat)
  | goRight (parent : Nat)
  | stuck
deriving DecidableEq, Repr

/-- The descent loop of `StrMap::insert` (and, with the same branch
structure, of `get`/`get_mut`/`remove`): stop when hash and bytes both
match; go left when the probe hash is strictly smaller; otherwise
(greater hash, or equal hash with different bytes) go right. -/
def probe (store : List (Node V)) (hash : Nat) (key : Bytes) : Nat → Nat → Probe
  | _, 0 => .stuck
  | idx, fuel + 1 =>
    match store[idx]? with
    | none => .stuck
    | some node =>
      if hash = node.key.hash ∧ key = node.key.as_bytes then
        .found idx
      else if hash < node.key.hash then
        if node.left ≠ 0 then probe store hash key node.left fuel else .goLeft idx
      else
        if node.right ≠ 0 then probe store hash key node.right fuel else .goRight idx

/-- `StrMap::insert`: upsert. An empty map pushes the root at index `0`;
otherwise the probe either finds the key (overwrite the value in place) or
identifies the parent and side at which `add_node`'s fresh index is linked. -/
def insert (m : StrMap V) (key : Bytes) (value : V) : StrMap V :=
  let hash := hash_key key
  if m.store.length = 0 then
    { store := [Node.mkAttached value hash key],
      cap := if m.cap = 0 then grow_cap m.cap 0 else m.cap }
  else
    match probe m.store hash key 0 m.store.length with
    | .found i =>
      { m with store := modifyAt m.store i fun n => { n with value := value } }
    | .goLeft p =>
      let added := m.store.length
      let m' := m.add_node key value hash
      { m' with store := modifyAt m'.store p fun n => { n with left := added } }
    | .goRight p =>
      let added := m.store.length
      let m' := m.add_node key value hash
      { m' with store := modifyAt m'.store p fun n => { n with right := added } }
    | .stuck => m

/-- The loop body of `StrMap::get`: identical descent to `insert`, no
mutation, `none` when the branch to follow does not exist. -/
def getLoop (store : List (Node V)) (hash : Nat) (key : Bytes) : Nat → Nat → Option V
  | _, 0 => none
  | idx, fuel + 1 =>
    match store[idx]? with
    | none => none
    | some node =>
      if hash = node.key.hash ∧ key = node.key.as_bytes then
        some node.value
      else if hash < node.key.hash then
        if node.left = 0 then none else getLoop store hash key node.left fuel
      else
        if node.right = 0 then none else getLoop store hash key node.right fuel

/-- `StrMap::get`. -/
def get (m : StrMap V) (key : Bytes) : Option V :=
  if m.store.length = 0 then none
  else getLoop m.store (hash_key key) key 0 m.store.length

/-- The loop of `StrMap::get_mut` and `StrMap::remove`: the same descent,
tracking the index of the current node, `none` when the branch to follow
does not exist. -/
def findLoop (store : List (Node V)) (hash : Nat) (key : Bytes) : Nat → Nat → Option Nat
  | _, 0 => none
  | idx, fuel + 1 =>
    match store[idx]? with
    | none => none
    | some node =>
      if hash = node.key.hash ∧ key = node.key.as_bytes then
        some idx
      else if hash < node.key.hash then
        if node.left = 0 then none else findLoop store hash key node.left fuel
      else
        if node.right = 0 then none else findLoop store hash key node.right fuel

/-- The index located by `StrMap::get_mut` (the Rust function returns
`&mut self.store[index].value`). -/
def get_mut_idx (m : StrMap V) (key : Bytes) : Option Nat :=
  if m.store.length = 0 then none
  else findLoop m.store (hash_key key) key 0 m.store.length

/-- `StrMap::get_mut`, read as the value the returned reference points at. -/
def get_mut (m : StrMap V) (key : Bytes) : Option V :=
  (m.get_mut_idx key).bind fun i => (m.store[i]?).map (·.value)

/-- `StrMap::remove`: locate the node exactly as `get_mut` does; when found,
rebuild the entire map by re-inserting every surviving node in original
(storage) order into a fresh map of capacity `len - 1`, and return the
removed value. An absent key is a no-op returning `none`. -/
def remove (m : StrMap V) (key : Bytes) : Option V × StrMap V :=
  if m.store.length = 0 then (none, m)
  else
    match findLoop m.store (hash_key key) key 0 m.store.length with
    | none => (none, m)
    | some index =>
      let new_object :=
        (m.store.eraseIdx index).foldl
          (fun acc n => acc.insert n.key.as_bytes n.value)
          (with_capacity V (m.store.length - 1))
      ((m.store[index]?).map (·.value), new_object)

/-- `StrMap::len`. -/
def len (m : StrMap V) : Nat := m.store.length

/-- `StrMap::clear`: drop all nodes, keep the capacity. -/
def clear (m : StrMap V) : StrMap V := { m with store := [] }

/-- The entries yielded, in order, by the `Iter` iterator
(`(node.key.as_str(), &node.value)` for each node in storage order). -/
def entries (m : StrMap V) : List (Bytes × V) :=
  m.store.map fun n => (n.key.as_bytes, n.value)

/-- The keys yielded, in order, by iteration. -/
def keysOf (m : StrMap V) : List Bytes :=
  m.store.map fun n => n.key.as_bytes

/-- `PartialEq for StrMap`: equal lengths, and every `(key, value)` pair
yielded by iterating `self` is mapped to an equal value by `other.get`. -/
def mapEq (a b : StrMap V) : Prop :=
  a.store.length = b.store.length ∧
    ∀ n ∈ a.store, b.get n.key.as_bytes = some n.value

instance (a b : StrMap V) [DecidableEq V] : Decidable (mapEq a b) := by
  unfold mapEq; infer_instance

end StrMap

/-- Build a map by a sequence of `insert` calls starting from an arbitrary
fresh map (`StrMap::new` or `StrMap::with_capacity`). -/
def buildMapFrom {V : Type} (m : StrMap V) (ps : List (Bytes × V)) : StrMap V :=
  ps.foldl (fun acc p => acc.insert p.1 p.2) m

/-- Build a map by a sequence of `insert` calls on `StrMap::new()`. -/
def buildMap {V : Type} (ps : List (Bytes × V)) : StrMap V :=
  buildMapFrom (StrMap.new V) ps

/-- The keys of a list of insertions, keeping the first occurrence of each
key (`seen` accumulates keys already emitted). -/
def firstKeysAux (seen : List Bytes) : List Bytes → List Bytes
  | [] => []
  | k :: rest =>
    if k ∈ seen then firstKeysAux seen rest
    else k :: firstKeysAux (k :: seen) rest

/-- The keys of a list of insertions in first-insertion order. -/
def firstKeys (l : List Bytes) : List Bytes := firstKeysAux [] l

/-- The value of the latest insertion of key `k` in the sequence `ps`
(`none` if `k` was never inserted). -/
def lookupLast {V : Type} (ps : List (Bytes × V)) (k : Bytes) : Option V :=
  ps.foldl (fun acc p => if p.1 = k then some p.2 else acc) none

/-! ### Structural invariants of the node store -/

/-- A stored child index is either the `0` sentinel or a valid index strictly
greater than its parent's (children are always appended after their
parents, which in particular means the root at index `0` is never
referenced as a child). -/
def ChildOk (len i c : Nat) : Prop := c = 0 ∨ (i < c ∧ c < len)

/-- Every node's child links satisfy `ChildOk`. -/
def StoreOk {V : Type} (store : List (Node V)) : Prop :=
  ∀ i n, store[i]? = some n →
    ChildOk store.length i n.left ∧ ChildOk store.length i n.right

/-- A key record in its steady state: short keys are stored inline with a
valid cached pointer into the record, long keys on the heap, the cached
hash agrees with `hash_key` of the bytes, and the bytes have length `len`. -/
def KeyOk (key : Key) : Prop :=
  (key.len ≤ KEY_BUF_LEN → key.ptr = .inline ∧ key.buf.length = key.len) ∧
  (KEY_BUF_LEN < key.len → key.ptr = .heap ∧ key.heapBuf.length = key.len) ∧
  key.hash = hash_key key.as_bytes ∧ key.as_bytes.length = key.len

/-- Connectivity through zero or more left/right hops from node `i` to
node `j` (following only non-sentinel links). -/
inductive Reach {V : Type} (store : List (Node V)) : Nat → Nat → Prop
  | refl (i : Nat) : Reach store i i
  | left {i j : Nat} {n : Node V} :
      Reach store i j → store[j]? = some n → n.left ≠ 0 → Reach store i n.left
  | right {i j : Nat} {n : Node V} :
      Reach store i j → store[j]? = some n → n.right ≠ 0 → Reach store i n.right

/-- The fields of a node that the descent loops read: hash, key bytes, and
the two child links. -/
def nodeShape {V : Type} (n : Node V) : Nat × Bytes × Nat × Nat :=
  (n.key.hash, n.key.as_bytes, n.left, n.right)

/-- The invariant tying a map to the insertion sequence that built it. -/
structure BuildInv {V : Type} (ps : List (Bytes × V)) (m : StrMap V) : Prop where
  keys_eq : m.keysOf = firstKeys (ps.map Prod.fst)
  get_eq : ∀ k, m.get k = lookupLast ps k
  store_ok : StoreOk m.store
  key_ok : ∀ n ∈ m.store, KeyOk n.key
  values_eq : ∀ (j : Nat) (n : Node V), m.store[j]? = some n →
    lookupLast ps n.key.as_bytes = some n.value
  reach_all : ∀ j < m.store.length, Reach m.store 0 j

/-! ### The Generator

`codegen/to_json.rs` programs against the `Generator` trait; the trait and
its implementations live in `codegen/mod.rs`, which is not among the
sources. The generator state and its primitives below are therefore
modelled from the spec (§4.2, §6, §7). -/

/-- Modelled from the spec: the single output-sink failure kind that the
Generator and Fluent Builder propagate (`codegen/mod.rs` is not among the
sources). An in-memory buffer sink never produces it; a stream sink may. -/
inductive SinkErr where
  | ioError
deriving DecidableEq, Repr

/-- Modelled from the spec: the configuration of a Generator instance
(`codegen/mod.rs` is not among the sources). `spaces = none` is compact
mode (`DumpGenerator`/`WriterGenerator`); `spaces = some u` is pretty mode
with `u` spaces per indentation level. `cap = none` is an in-memory buffer
sink that always accepts bytes; `cap = some c` is a stream sink that fails
once more than `c` bytes have been written. -/
structure GenCfg where
  spaces : Option Nat
  cap : Option Nat
deriving DecidableEq, Repr

/-- Modelled from the spec: a Generator owns one growable output buffer and
one indentation counter (`codegen/mod.rs` is not among the sources). -/
structure GenState where
  out : Bytes
  depth : Nat
deriving DecidableEq, Repr

/-- Generator computations: state passing with the single sink failure. -/
def GenM (α : Type) : Type := GenState → Except SinkErr (α × GenState)

instance : Monad GenM where
  pure a := fun s => .ok (a, s)
  bind m f := fun s =>
    match m s with
    | .ok (a, s') => f a s'
    | .error e => .error e

namespace Gen

/-- Modelled from the spec: `Generator::write`, raw bytes to the sink; a
buffer sink always accepts, a stream sink fails past its capacity with the
single failure kind. -/
def write (cfg : GenCfg) (bytes : Bytes) : GenM Unit := fun s =>
  match cfg.cap with
  | none => .ok ((), { s with out := s.out ++ bytes })
  | some c =>
    if s.out.length + bytes.length ≤ c then
      .ok ((), { s with out := s.out ++ bytes })
    else
      .error .ioError

/-- Modelled from the spec: `Generator::write_char`, one structural ASCII
byte. -/
def write_char (cfg : GenCfg) (b : Nat) : GenM Unit := write cfg [b]

/-- Modelled from the spec: one byte of standard JSON string escaping
(the exact escaping rules are delegated to the string-writing primitive and
are outside the core contract). -/
def escapeByte (b : Nat) : Bytes :=
  if b = 34 then [92, 34]
  else if b = 92 then [92, 92]
  else if b = 8 then [92, 98]
  else if b = 12 then [92, 102]
  else if b = 10 then [92, 110]
  else if b = 13 then [92, 114]
  else if b = 9 then [92, 116]
  else if b < 32 then [92, 117, 48, 48, 48 + b / 16, if b % 16 < 10 then 48 + b % 16 else 87 + b % 16]
  else [b]

/-- A JSON string literal: quote, escaped bytes, quote. -/
def strLit (s : Bytes) : Bytes := 34 :: (s.flatMap escapeByte ++ [34])

/-- Modelled from the spec: `Generator::write_str`, an escaped, quoted JSON
string literal. -/
def write_str (cfg : GenCfg) (s : Bytes) : GenM Unit := write cfg (strLit s)

/-- Modelled from the spec: `Generator::write_min(slice, min)` writes
`slice` in pretty mode and the single byte `min` in compact mode. -/
def write_min (cfg : GenCfg) (slice : Bytes) (minByte : Nat) : GenM Unit :=
  match cfg.spaces with
  | none => write cfg [minByte]
  | some _ => write cfg slice

/-- Modelled from the spec: `Generator::new_line` is a no-op in compact
mode; in pretty mode it emits a newline plus `depth × unit` spaces. -/
def new_line (cfg : GenCfg) : GenM Unit := fun s =>
  match cfg.spaces with
  | none => .ok ((), s)
  | some u => write cfg (10 :: List.replicate (s.depth * u) 32) s

/-- Modelled from the spec: `Generator::indent` bumps the indentation
counter in pretty mode (it stays `0` in compact mode). -/
def indent (cfg : GenCfg) : GenM Unit := fun s =>
  match cfg.spaces with
  | none => .ok ((), s)
  | some _ => .ok ((), { s with depth := s.depth + 1 })

/-- Modelled from the spec: `Generator::dedent`. -/
def dedent (cfg : GenCfg) : GenM Unit := fun s =>
  match cfg.spaces with
  | none => .ok ((), s)
  | some _ => .ok ((), { s with depth := s.depth - 1 })

end Gen

/-- The loop `for item in iter { ... }` of `generate_array` in
`codegen/to_json.rs`: comma, line break, projected item. -/
def generate_array_rest {α : Type} (cfg : GenCfg) (gen_item : α → GenM Unit) :
    List α → GenM Unit
  | [] => pure ()
  | item :: rest => do
    Gen.write_char cfg 44
    Gen.new_line cfg
    gen_item item
    generate_array_rest cfg gen_item rest

/-- `generate_array` from `codegen/to_json.rs`, parameterized by the
projection of one item (the `ToJson` capability of the element type). -/
def generate_array {α : Type} (cfg : GenCfg) (gen_item : α → GenM Unit)
    (items : List α) : GenM Unit := do
  Gen.write_char cfg 91
  match items with
  | [] => Gen.write_char cfg 93
  | first :: rest => do
    Gen.indent cfg
    Gen.new_line cfg
    gen_item first
    generate_array_rest cfg gen_item rest
    Gen.dedent cfg
    Gen.new_line cfg
    Gen.write_char cfg 93

/-- The loop `for (key, value) in iter { ... }` of `generate_object` in
`codegen/to_json.rs`. -/
def generate_object_rest {α : Type} (cfg : GenCfg) (gen_item : α → GenM Unit) :
    List (Bytes × α) → GenM Unit
  | [] => pure ()
  | (key, value) :: rest => do
    Gen.write_char cfg 44
    Gen.new_line cfg
    Gen.write_str cfg key
    Gen.write_min cfg [58, 32] 58
    gen_item value
    generate_object_rest cfg gen_item rest

/-- `generate_object` from `codegen/to_json.rs`, parameterized by the
projection of one member value. -/
def generate_object {α : Type} (cfg : GenCfg) (gen_item : α → GenM Unit)
    (items : List (Bytes × α)) : GenM Unit := do
  Gen.write_char cfg 123
  match items with
  | [] => Gen.write_char cfg 125
  | (key, value) :: rest => do
    Gen.indent cfg
    Gen.new_line cfg
    Gen.write_str cfg key
    Gen.write_min cfg [58, 32] 58
    gen_item value
    generate_object_rest cfg gen_item rest
    Gen.dedent cfg
    Gen.new_line cfg
    Gen.write_char cfg 125

/-- A generator computation that always succeeds (as every computation on
an in-memory buffer sink does). -/
def TotalGen {α : Type} (m : GenM α) : Prop :=
  ∀ s : GenState, ∃ (a : α) (s' : GenState), m s = .ok (a, s')

/-- `mS` (stream sink) refines `mB` (buffer sink) on success: whenever the
fallible computation reports success it produced exactly the state the
infallible one would --- no underlying write failure was swallowed along
the way. -/
def SameOnOk {α : Type} (mS mB : GenM α) : Prop :=
  ∀ (s : GenState) (a : α) (s' : GenState), mS s = .ok (a, s') → mB s = .ok (a, s')

/-! ### The value tree -/

/-- Modelled from the spec: the arbitrary-precision number representation
(the `number` module is not among the sources); treated as an opaque value
carrying its own text rendering, used by `Generator::write_number`. -/
structure NumberRep where
  text : Bytes
deriving DecidableEq, Repr

/-- Modelled from the spec: the small-string representation (the `short`
module is not among the sources); an opaque inline string value. -/
structure ShortRep where
  chars : Bytes
deriving DecidableEq, Repr

/-- The `JsonValue` tagged union consumed by this core (variants as matched
in `codegen/to_json.rs`). -/
inductive JsonValue where
  | Null
  | Boolean (b : Bool)
  | Number (n : NumberRep)
  | Short (s : ShortRep)
  | Str (s : Bytes)
  | Array (xs : List JsonValue)
  | Object (o : StrMap JsonValue)

/-- `Index<&str> for Object`: reading an absent member yields a reference to
the static `NULL` value, never a failure. -/
def Object.indexRead (o : StrMap JsonValue) (key : Bytes) : JsonValue :=
  match o.get key with
  | some value => value
  | _ => JsonValue.Null

/-- `IndexMut<&str> for Object`: `get_mut` when present; otherwise insert
`JsonValue::Null` under the key. The first component is the map after the
access, the second the value the returned mutable reference points at. -/
def Object.indexWrite (o : StrMap JsonValue) (key : Bytes) :
    StrMap JsonValue × JsonValue :=
  match o.get_mut key with
  | some value => (o, value)
  | none => (o.insert key JsonValue.Null, JsonValue.Null)

/-! ### The Fluent Builder

`writer/mod.rs` hardwires the builder to `DumpGenerator` (compact mode,
in-memory buffer, infallible writes), so its writes are modelled as plain
appends to the output buffer. The typestate chain of wrapper structs is
modelled as a stack of contexts: each Rust wrapper type corresponds to one
stack shape (`JsonWriter` is the empty stack). -/

namespace Writer

/-- One level of the builder's typestate chain: `EmptyObjectWriter`,
`ObjectWriter`, `ObjectValueWriter` (a key written, awaiting its value),
`EmptyArrayWriter`, `ArrayWriter`. -/
inductive BCtx where
  | objEmpty
  | objNonEmpty
  | objValue
  | arrEmpty
  | arrNonEmpty
deriving DecidableEq, Repr

/-- Scalar payloads accepted by `ValueWriter::value` through the library's
`ToJson` implementations for scalars (`()`, `bool`, numbers, strings);
nested containers are built with `object()`/`array()` instead. -/
inductive BVal where
  | null
  | bool (b : Bool)
  | num (n : NumberRep)
  | str (s : Bytes)
deriving DecidableEq, Repr

/-- The bytes `val.generate(self.gen())` emits for a scalar payload on the
compact `DumpGenerator`. -/
def bvalOut : BVal → Bytes
  | .null => [110, 117, 108, 108]
  | .bool true => [116, 114, 117, 101]
  | .bool false => [102, 97, 108, 115, 101]
  | .num n => n.text
  | .str s => Gen.strLit s

/-- A builder state: the accumulated output of the underlying
`DumpGenerator` and the stack of open typestate contexts (innermost
first). -/
structure BState where
  out : Bytes
  stack : List BCtx
deriving DecidableEq, Repr

/-- The operations the fluent API exposes. -/
inductive BOp where
  | startObj
  | startArr
  | value (v : BVal)
  | key (k : Bytes)
  | close
deriving DecidableEq, Repr

/-- Outcome of one builder call: a new intermediate state, the finished
document (the terminal `pop` on `JsonWriter` returning the `String`), or
`reject` for a call the typestate API does not expose in that state. -/
inductive BResult where
  | mid (s : BState)
  | done (out : Bytes)
  | reject
deriving DecidableEq, Repr

/-- Does the current state implement `ValueWriter` (i.e. expose `object()`,
`array()` and `value()`)? `JsonWriter` (empty stack), `ObjectValueWriter`,
`EmptyArrayWriter` and `ArrayWriter` do. -/
def valuePos : List BCtx → Bool
  | [] => true
  | .objValue :: _ => true
  | .arrEmpty :: _ => true
  | .arrNonEmpty :: _ => true
  | _ => false

/-- `ValueWriter::before_value`: only `ArrayWriter` overrides it, writing
the separating comma. -/
def beforeValue : List BCtx → Bytes
  | .arrNonEmpty :: _ => [44]
  | _ => []

/-- The typestate transition when a completed value is handed back
(`ValueWriter::pop`): at the root the document is finished; a pending
object key becomes a written member; an array records that it is no longer
empty. -/
def deliver (out : Bytes) : List BCtx → BResult
  | [] => .done out
  | .objValue :: rest => .mid ⟨out, .objNonEmpty :: rest⟩
  | .arrEmpty :: rest => .mid ⟨out, .arrNonEmpty :: rest⟩
  | .arrNonEmpty :: rest => .mid ⟨out, .arrNonEmpty :: rest⟩
  | _ => .reject

/-- One builder call, as permitted by which methods each typestate exposes
in `writer/mod.rs`. -/
def step (s : BState) (op : BOp) : BResult :=
  match op with
  | .startObj =>
    if valuePos s.stack then
      .mid ⟨s.out ++ beforeValue s.stack ++ [123], .objEmpty :: s.stack⟩
    else .reject
  | .startArr =>
    if valuePos s.stack then
      .mid ⟨s.out ++ beforeValue s.stack ++ [91], .arrEmpty :: s.stack⟩
    else .reject
  | .value v =>
    if valuePos s.stack then
      deliver (s.out ++ beforeValue s.stack ++ bvalOut v) s.stack
    else .reject
  | .key k =>
    match s.stack with
    | .objEmpty :: rest =>
      .mid ⟨s.out ++ Gen.strLit k ++ [58], .objValue :: rest⟩
    | .objNonEmpty :: rest =>
      .mid ⟨s.out ++ [44] ++ Gen.strLit k ++ [58], .objValue :: rest⟩
    | _ => .reject
  | .close =>
    match s.stack with
    | .objEmpty :: rest => deliver (s.out ++ [125]) rest
    | .objNonEmpty :: rest => deliver (s.out ++ [125]) rest
    | .arrEmpty :: rest => deliver (s.out ++ [93]) rest
    | .arrNonEmpty :: rest => deliver (s.out ++ [93]) rest
    | _ => .reject

/-- Run a sequence of builder calls from a state; the sequence is permitted
iff this does not produce `reject`, and complete iff it ends in `done`. -/
def steps (s : BState) : List BOp → BResult
  | [] => .mid s
  | op :: ops =>
    match step s op with
    | .mid s' => steps s' ops
    | .done out => if ops.isEmpty then .done out else .reject
    | .reject => .reject

/-- Run a complete builder session from `JsonWriter::new()`. -/
def run (ops : List BOp) : BResult := steps ⟨[], []⟩ ops

/-! Grammar of compact JSON documents, as emitted by this library. -/

mutual
/-- `t` is the compact serialization of one JSON value. -/
inductive JsonText : Bytes → Prop where
  | scalar (v : BVal) : JsonText (bvalOut v)
  | objEmpty : JsonText [123, 125]
  | objNonEmpty {b : Bytes} : ObjItems b → JsonText (123 :: (b ++ [125]))
  | arrEmpty : JsonText [91, 93]
  | arrNonEmpty {b : Bytes} : ArrItems b → JsonText (91 :: (b ++ [93]))

/-- `b` is a non-empty comma-separated list of `"key":value` members. -/
inductive ObjItems : Bytes → Prop where
  | single {v : Bytes} (k : Bytes) :
      JsonText v → ObjItems (Gen.strLit k ++ [58] ++ v)
  | snoc {b v : Bytes} (k : Bytes) :
      ObjItems b → JsonText v → ObjItems (b ++ [44] ++ Gen.strLit k ++ [58] ++ v)

/-- `b` is a non-empty comma-separated list of values. -/
inductive ArrItems : Bytes → Prop where
  | single {v : Bytes} : JsonText v → ArrItems v
  | snoc {b v : Bytes} : ArrItems b → JsonText v → ArrItems (b ++ [44] ++ v)
end

/-- The bytes a frame of the builder stack has contributed so far. -/
def Frame : BCtx → Bytes → Prop
  | .objEmpty, frame => frame = [123]
  | .objNonEmpty, frame => ∃ b, ObjItems b ∧ frame = 123 :: b
  | .objValue, frame =>
    ∃ pfx k, frame = 123 :: (pfx ++ Gen.strLit k ++ [58]) ∧
      (pfx = [] ∨ ∃ b, ObjItems b ∧ pfx = b ++ [44])
  | .arrEmpty, frame => frame = [91]
  | .arrNonEmpty, frame => ∃ b, ArrItems b ∧ frame = 91 :: b

/-- The enclosing stack is positioned at a value hole. -/
def ValueHole : List BCtx → Prop
  | [] => True
  | .objValue :: _ => True
  | .arrEmpty :: _ => True
  | .arrNonEmpty :: _ => True
  | _ => False

/-- The output of a mid-session builder state decomposes into the frames of
its stack: each open context contributed the pending `before_value` comma
of its enclosing array, if any, followed by its own frame. -/
def PartialOut : List BCtx → Bytes → Prop
  | [], out => out = []
  | c :: rest, out =>
    ∃ pre frame, out = pre ++ beforeValue rest ++ frame ∧ Frame c frame ∧
      PartialOut rest pre ∧ ValueHole rest

/-- What soundness requires of each builder-call outcome. -/
def BResultOk : BResult → Prop
  | .mid s => PartialOut s.stack s.out
  | .done o => JsonText o
  | .reject => True

end Writer

/-! ## Lemmas about the descent loops -/

namespace StrMap

variable {V : Type}

theorem probe_found_spec {store : List (Node V)} {h : Nat} {k : Bytes} :
    ∀ {fuel idx i}, probe store h k idx fuel = .found i →
      ∃ n, store[i]? = some n ∧ n.key.hash = h ∧ n.key.as_bytes = k := by
  intro fuel
  induction fuel with
  | zero => intro idx i hp; simp [probe] at hp
  | succ fuel ih =>
    intro idx i hp
    cases hidx : store[idx]? with
    | none => simp [probe, hidx] at hp
    | some n =>
      simp only [probe, hidx] at hp
      split_ifs at hp with h1 h2 h3 h4
      · cases hp
        exact ⟨n, hidx, h1.1.symm, h1.2.symm⟩
      · exact ih hp
      · exact ih hp

theorem probe_goLeft_spec {store : List (Node V)} {h : Nat} {k : Bytes} :
    ∀ {fuel idx p}, probe store h k idx fuel = .goLeft p →
      ∃ n, store[p]? = some n ∧ n.left = 0 ∧ h < n.key.hash := by
  intro fuel
  induction fuel with
  | zero => intro idx p hp; simp [probe] at hp
  | succ fuel ih =>
    intro idx p hp
    cases hidx : store[idx]? with
    | none => simp [probe, hidx] at hp
    | some n =>
      simp only [probe, hidx] at hp
      split_ifs at hp with h1 h2 h3 h4
      · exact ih hp
      · cases hp
        exact ⟨n, hidx, by simpa using h3, h2⟩
      · exact ih hp

theorem probe_goRight_spec {store : List (Node V)} {h : Nat} {k : Bytes} :
    ∀ {fuel idx p}, probe store h k idx fuel = .goRight p →
      ∃ n, store[p]? = some n ∧ n.right = 0 ∧
        ¬(h = n.key.hash ∧ k = n.key.as_bytes) ∧ ¬h < n.key.hash := by
  intro fuel
  induction fuel with
  | zero => intro idx p hp; simp [probe] at hp
  | succ fuel ih =>
    intro idx p hp
    cases hidx : store[idx]? with
    | none => simp [probe, hidx] at hp
    | some n =>
      simp only [probe, hidx] at hp
      split_ifs at hp with h1 h2 h3 h4
      · exact ih hp
      · exact ih hp
      · cases hp
        exact ⟨n, hidx, by simpa using h4, h1, h2⟩

/-- The probe result is stable under extra fuel once it is not `stuck`. -/
theorem probe_mono {store : List (Node V)} {h : Nat} {k : Bytes} :
    ∀ {fuel idx}, probe store h k idx fuel ≠ .stuck →
      ∀ {fuel'}, fuel ≤ fuel' →
        probe store h k idx fuel' = probe store h k idx fuel := by
  intro fuel
  induction fuel with
  | zero => intro idx hp; exact absurd rfl hp
  | succ fuel ih =>
    intro idx hp fuel' hle
    obtain ⟨f2, rfl⟩ : ∃ f2, fuel' = f2 + 1 := ⟨fuel' - 1, by omega⟩
    have hf2 : fuel ≤ f2 := by omega
    cases hidx : store[idx]? with
    | none => simp [probe, hidx] at hp
    | some n =>
      simp only [probe, hidx] at hp ⊢
      split_ifs at hp ⊢ with h1 h2 h3 h4
      · rfl
      · exact ih hp hf2
      · rfl
      · exact ih hp hf2
      · rfl

/-- With `StoreOk`, fuel `store.length - idx` suffices: the descent follows
strictly increasing indices, so it never runs out. -/
theorem probe_no_stuck {store : List (Node V)} (hok : StoreOk store) {h : Nat}
    {k : Bytes} :
    ∀ {fuel idx}, idx < store.length → store.length - idx ≤ fuel →
      probe store h k idx fuel ≠ .stuck := by
  intro fuel
  induction fuel with
  | zero => intro idx hidx hf; omega
  | succ fuel ih =>
    intro idx hidx hf
    have hn : store[idx]? = some store[idx] := List.getElem?_eq_getElem hidx
    simp only [probe, hn]
    split_ifs with h1 h2 h3 h4
    · simp
    · rcases (hok idx _ hn).1 with hz | hlt
      · exact absurd hz h3
      · exact ih hlt.2 (by omega)
    · simp
    · rcases (hok idx _ hn).2 with hz | hlt
      · exact absurd hz h4
      · exact ih hlt.2 (by omega)
    · simp

/-- The loop of `get` returns exactly the value at the index the shared
descent finds. -/
theorem getLoop_eq_probe {store : List (Node V)} {h : Nat} {k : Bytes} :
    ∀ fuel idx, getLoop store h k idx fuel =
      match probe store h k idx fuel with
      | .found j => (store[j]?).map (·.value)
      | _ => none := by
  intro fuel
  induction fuel with
  | zero => intro idx; simp [getLoop, probe]
  | succ fuel ih =>
    intro idx
    cases hidx : store[idx]? with
    | none => simp [getLoop, probe, hidx]
    | some n =>
      by_cases h1 : h = n.key.hash ∧ k = n.key.as_bytes
      · simp [getLoop, probe, hidx, h1]
      · by_cases h2 : h < n.key.hash
        · by_cases h3 : n.left = 0
          · simp [getLoop, probe, hidx, h1, h2, h3]
          · simp [getLoop, probe, hidx, h1, h2, h3, ih]
        · by_cases h4 : n.right = 0
          · simp [getLoop, probe, hidx, h1, h2, h4]
          · simp [getLoop, probe, hidx, h1, h2, h4, ih]

/-- The loop of `get_mut`/`remove` returns exactly the index the shared
descent finds. -/
theorem findLoop_eq_probe {store : List (Node V)} {h : Nat} {k : Bytes} :
    ∀ fuel idx, findLoop store h k idx fuel =
      match probe store h k idx fuel with
      | .found j => some j
      | _ => none := by
  intro fuel
  induction fuel with
  | zero => intro idx; simp [findLoop, probe]
  | succ fuel ih =>
    intro idx
    cases hidx : store[idx]? with
    | none => simp [findLoop, probe, hidx]
    | some n =>
      by_cases h1 : h = n.key.hash ∧ k = n.key.as_bytes
      · simp [findLoop, probe, hidx, h1]
      · by_cases h2 : h < n.key.hash
        · by_cases h3 : n.left = 0
          · simp [findLoop, probe, hidx, h1, h2, h3]
          · simp [findLoop, probe, hidx, h1, h2, h3, ih]
        · by_cases h4 : n.right = 0
          · simp [findLoop, probe, hidx, h1, h2, h4]
          · simp [findLoop, probe, hidx, h1, h2, h4, ih]

/-- The descent only reads the shape (hash, bytes, links) of each node. -/
theorem probe_congr {s₁ s₂ : List (Node V)}
    (hs : ∀ j : Nat, s₁[j]?.map nodeShape = s₂[j]?.map nodeShape) {h : Nat}
    {k : Bytes} :
    ∀ fuel idx, probe s₁ h k idx fuel = probe s₂ h k idx fuel := by
  intro fuel
  induction fuel with
  | zero => intro idx; rfl
  | succ fuel ih =>
    intro idx
    have hj := hs idx
    cases h₁ : s₁[idx]? with
    | none =>
      cases h₂ : s₂[idx]? with
      | none => simp [probe, h₁, h₂]
      | some n => rw [h₁, h₂] at hj; simp at hj
    | some n₁ =>
      cases h₂ : s₂[idx]? with
      | none => rw [h₁, h₂] at hj; simp at hj
      | some n₂ =>
        rw [h₁, h₂] at hj
        simp [nodeShape, Prod.ext_iff] at hj
        obtain ⟨e1, e2, e3, e4⟩ := hj
        simp only [probe, h₁, h₂, e1, e2, e3, e4, ih]

/-- One step of the descent, unfolded. -/
theorem probe_succ (store : List (Node V)) (h : Nat) (k : Bytes) (idx fuel : Nat) :
    probe store h k idx (fuel + 1) =
      match store[idx]? with
      | none => .stuck
      | some node =>
        if h = node.key.hash ∧ k = node.key.as_bytes then
          .found idx
        else if h < node.key.hash then
          if node.left ≠ 0 then probe store h k node.left fuel else .goLeft idx
        else
          if node.right ≠ 0 then probe store h k node.right fuel else .goRight idx :=
  rfl

theorem modifyAt_getElem {store : List (Node V)} {p : Nat} {pn : Node V}
    (hp : store[p]? = some pn) (f : Node V → Node V) :
    ∀ j : Nat, (modifyAt store p f)[j]? =
      if j = p then some (f pn) else store[j]? := by
  intro j
  have hplen : p < store.length := by
    rcases List.getElem?_eq_some.mp hp with ⟨hlt, _⟩
    exact hlt
  unfold modifyAt
  rw [hp]
  by_cases hj : j = p
  · subst hj
    simp [List.getElem?_set_eq_of_lt _ hplen]
  · simp [List.getElem?_set_ne (fun hh => hj hh.symm), hj]

/-- How `insert`'s final store (fresh node appended, linked as the left
child of the probe's fall-off parent `p`) rewrites an arbitrary later
descent: descents that did not fall off at `p`'s left are unchanged, and
those that did continue into the fresh node. -/
theorem probe_attachLeft {store : List (Node V)} {p : Nat} {pn fresh : Node V}
    (hp : store[p]? = some pn) (hpl : pn.left = 0)
    (hfl : fresh.left = 0) (hfr : fresh.right = 0) {h : Nat} {k : Bytes} :
    ∀ {fuel idx}, probe store h k idx fuel ≠ .stuck →
      probe (modifyAt (store ++ [fresh]) p fun n => { n with left := store.length })
          h k idx (fuel + 1) =
        match probe store h k idx fuel with
        | .goLeft q =>
          if q = p then
            (if h = fresh.key.hash ∧ k = fresh.key.as_bytes then
              Probe.found store.length
             else if h < fresh.key.hash then Probe.goLeft store.length
             else Probe.goRight store.length)
          else .goLeft q
        | r => r := by
  have hplen : p < store.length := by
    rcases List.getElem?_eq_some.mp hp with ⟨hlt, _⟩
    exact hlt
  have hap : (store ++ [fresh])[p]? = some pn := by
    rw [List.getElem?_append_left hplen]; exact hp
  set s' := modifyAt (store ++ [fresh]) p fun n => { n with left := store.length }
    with hs'
  have hget := modifyAt_getElem hap (fun n => { n with left := store.length })
  have hfresh : s'[store.length]? = some fresh := by
    rw [hs', hget store.length]
    rw [if_neg (by omega)]
    rw [List.getElem?_append_right (Nat.le_refl _)]
    simp
  intro fuel
  induction fuel with
  | zero => intro idx hstk; exact absurd rfl hstk
  | succ fuel ih =>
    intro idx hstk
    cases hidx : store[idx]? with
    | none => simp [probe, hidx] at hstk
    | some n =>
      have hidxlen : idx < store.length := by
        rcases List.getElem?_eq_some.mp hidx with ⟨hlt, _⟩
        exact hlt
      by_cases hip : idx = p
      · subst hip
        have hnp : n = pn := by rw [hidx] at hp; exact Option.some.inj hp
        subst hnp
        have hmp : s'[idx]? = some { n with left := store.length } := by
          rw [hs', hget idx, if_pos rfl]
        by_cases h1 : h = n.key.hash ∧ k = n.key.as_bytes
        · simp [probe, hidx, hmp, h1]
        · by_cases h2 : h < n.key.hash
          · -- the old probe fell off at `idx`'s empty left slot; the new
            -- descent continues into the fresh node
            have hlen0 : ¬store.length = 0 := by omega
            simp [probe, hidx, hmp, hfresh, h1, h2, hpl, hfl, hfr, hlen0]
          · by_cases h3 : n.right = 0
            · simp [probe, hidx, hmp, h1, h2, h3]
            · have hrec : probe store h k n.right fuel ≠ .stuck := by
                simpa [probe, hidx, h1, h2, h3] using hstk
              rw [show probe s' h k idx (fuel + 1 + 1)
                    = probe s' h k n.right (fuel + 1) from by
                  rw [probe_succ]; simp [hmp, h1, h2, h3],
                show probe store h k idx (fuel + 1)
                    = probe store h k n.right fuel from by
                  rw [probe_succ]; simp [hidx, h1, h2, h3]]
              exact ih hrec
      · have hmi : s'[idx]? = some n := by
          rw [hs', hget idx, if_neg hip, List.getElem?_append_left hidxlen, hidx]
        by_cases h1 : h = n.key.hash ∧ k = n.key.as_bytes
        · simp [probe, hidx, hmi, h1]
        · by_cases h2 : h < n.key.hash
          · by_cases h3 : n.left = 0
            · simp [probe, hidx, hmi, h1, h2, h3, hip]
            · have hrec : probe store h k n.left fuel ≠ .stuck := by
                simpa [probe, hidx, h1, h2, h3] using hstk
              rw [show probe s' h k idx (fuel + 1 + 1)
                    = probe s' h k n.left (fuel + 1) from by
                  rw [probe_succ]; simp [hmi, h1, h2, h3],
                show probe store h k idx (fuel + 1)
                    = probe store h k n.left fuel from by
                  rw [probe_succ]; simp [hidx, h1, h2, h3]]
              exact ih hrec
          · by_cases h4 : n.right = 0
            · simp [probe, hidx, hmi, h1, h2, h4]
            · have hrec : probe store h k n.right fuel ≠ .stuck := by
                simpa [probe, hidx, h1, h2, h4] using hstk
              rw [show probe s' h k idx (fuel + 1 + 1)
                    = probe s' h k n.right (fuel + 1) from by
                  rw [probe_succ]; simp [hmi, h1, h2, h4],
                show probe store h k idx (fuel + 1)
                    = probe store h k n.right fuel from by
                  rw [probe_succ]; simp [hidx, h1, h2, h4]]
              exact ih hrec

/-- Mirror image of `probe_attachLeft` for a fresh node linked as the right
child of the fall-off parent. -/
theorem probe_attachRight {store : List (Node V)} {p : Nat} {pn fresh : Node V}
    (hp : store[p]? = some pn) (hpr : pn.right = 0)
    (hfl : fresh.left = 0) (hfr : fresh.right = 0) {h : Nat} {k : Bytes} :
    ∀ {fuel idx}, probe store h k idx fuel ≠ .stuck →
      probe (modifyAt (store ++ [fresh]) p fun n => { n with right := store.length })
          h k idx (fuel + 1) =
        match probe store h k idx fuel with
        | .goRight q =>
          if q = p then
            (if h = fresh.key.hash ∧ k = fresh.key.as_bytes then
              Probe.found store.length
             else if h < fresh.key.hash then Probe.goLeft store.length
             else Probe.goRight store.length)
          else .goRight q
        | r => r := by
  have hplen : p < store.length := by
    rcases List.getElem?_eq_some.mp hp with ⟨hlt, _⟩
    exact hlt
  have hap : (store ++ [fresh])[p]? = some pn := by
    rw [List.getElem?_append_left hplen]; exact hp
  set s' := modifyAt (store ++ [fresh]) p fun n => { n with right := store.length }
    with hs'
  have hget := modifyAt_getElem hap (fun n => { n with right := store.length })
  have hfresh : s'[store.length]? = some fresh := by
    rw [hs', hget store.length]
    rw [if_neg (by omega)]
    rw [List.getElem?_append_right (Nat.le_refl _)]
    simp
  intro fuel
  induction fuel with
  | zero => intro idx hstk; exact absurd rfl hstk
  | succ fuel ih =>
    intro idx hstk
    cases hidx : store[idx]? with
    | none => simp [probe, hidx] at hstk
    | some n =>
      have hidxlen : idx < store.length := by
        rcases List.getElem?_eq_some.mp hidx with ⟨hlt, _⟩
        exact hlt
      by_cases hip : idx = p
      · subst hip
        have hnp : n = pn := by rw [hidx] at hp; exact Option.some.inj hp
        subst hnp
        have hmp : s'[idx]? = some { n with right := store.length } := by
          rw [hs', hget idx, if_pos rfl]
        by_cases h1 : h = n.key.hash ∧ k = n.key.as_bytes
        · simp [probe, hidx, hmp, h1]
        · by_cases h2 : h < n.key.hash
          · by_cases h3 : n.left = 0
            · simp [probe, hidx, hmp, h1, h2, h3]
            · have hrec : probe store h k n.left fuel ≠ .stuck := by
                simpa [probe, hidx, h1, h2, h3] using hstk
              rw [show probe s' h k idx (fuel + 1 + 1)
                    = probe s' h k n.left (fuel + 1) from by
                  rw [probe_succ]; simp [hmp, h1, h2, h3],
                show probe store h k idx (fuel + 1)
                    = probe store h k n.left fuel from by
                  rw [probe_succ]; simp [hidx, h1, h2, h3]]
              exact ih hrec
          · -- the old probe fell off at `idx`'s empty right slot; the new
            -- descent continues into the fresh node
            have hlen0 : ¬store.length = 0 := by omega
            simp [probe, hidx, hmp, hfresh, h1, h2, hpr, hfl, hfr, hlen0]
      · have hmi : s'[idx]? = some n := by
          rw [hs', hget idx, if_neg hip, List.getElem?_append_left hidxlen, hidx]
        by_cases h1 : h = n.key.hash ∧ k = n.key.as_bytes
        · simp [probe, hidx, hmi, h1]
        · by_cases h2 : h < n.key.hash
          · by_cases h3 : n.left = 0
            · simp [probe, hidx, hmi, h1, h2, h3]
            · have hrec : probe store h k n.left fuel ≠ .stuck := by
                simpa [probe, hidx, h1, h2, h3] using hstk
              rw [show probe s' h k idx (fuel + 1 + 1)
                    = probe s' h k n.left (fuel + 1) from by
                  rw [probe_succ]; simp [hmi, h1, h2, h3],
                show probe store h k idx (fuel + 1)
                    = probe store h k n.left fuel from by
                  rw [probe_succ]; simp [hidx, h1, h2, h3]]
              exact ih hrec
          · by_cases h4 : n.right = 0
            · simp [probe, hidx, hmi, h1, h2, h4, hip]
            · have hrec : probe store h k n.right fuel ≠ .stuck := by
                simpa [probe, hidx, h1, h2, h4] using hstk
              rw [show probe s' h k idx (fuel + 1 + 1)
                    = probe s' h k n.right (fuel + 1) from by
                  rw [probe_succ]; simp [hmi, h1, h2, h4],
                show probe store h k idx (fuel + 1)
                    = probe store h k n.right fuel from by
                  rw [probe_succ]; simp [hidx, h1, h2, h4]]
              exact ih hrec

end StrMap

/-! ## Lemmas about keys, first-occurrence lists, and latest lookups -/

theorem Key.hash_attach (h : Nat) (key : Bytes) :
    ((Key.new h key.length).attach key).hash = h := by
  unfold Key.new Key.attach
  by_cases hl : key.length ≤ KEY_BUF_LEN <;> simp [hl]

theorem Key.as_bytes_attach (h : Nat) (key : Bytes) :
    ((Key.new h key.length).attach key).as_bytes = key := by
  unfold Key.new Key.attach Key.as_bytes
  by_cases hl : key.length ≤ KEY_BUF_LEN <;> simp [hl]

theorem keyOk_attach (key : Bytes) :
    KeyOk ((Key.new (hash_key key) key.length).attach key) := by
  unfold KeyOk Key.new Key.attach Key.as_bytes
  by_cases hl : key.length ≤ KEY_BUF_LEN <;> simp [hl]

/-- A key in its steady state survives a record relocation followed by the
`fix_ptr` pass unchanged. -/
theorem Key.fix_relocate (k : Key) (hk : KeyOk k) : k.relocate.fix_ptr = k := by
  by_cases hl : k.len ≤ KEY_BUF_LEN
  · have hptr : k.ptr = .inline := (hk.1 hl).1
    cases k
    simp_all [Key.relocate, Key.fix_ptr]
  · have hptr : k.ptr = .heap := (hk.2.1 (by omega)).1
    cases k
    simp_all [Key.relocate, Key.fix_ptr]

theorem firstKeysAux_append (k : Bytes) :
    ∀ (l : List Bytes) (seen : List Bytes),
      firstKeysAux seen (l ++ [k]) =
        firstKeysAux seen l ++ (if k ∈ seen ∨ k ∈ l then [] else [k]) := by
  intro l
  induction l with
  | nil =>
    intro seen
    by_cases h : k ∈ seen <;> simp [firstKeysAux, h]
  | cons a l ih =>
    intro seen
    by_cases ha : a ∈ seen
    · by_cases hk : k = a
      · subst hk
        simp [firstKeysAux, ha, ih]
      · simp [firstKeysAux, ha, ih, hk]
    · by_cases hk : k = a
      · subst hk
        simp [firstKeysAux, ha, ih]
      · simp [firstKeysAux, ha, ih, hk]

theorem mem_firstKeysAux {x : Bytes} :
    ∀ {l seen : List Bytes}, x ∈ firstKeysAux seen l ↔ (x ∈ l ∧ x ∉ seen) := by
  intro l
  induction l with
  | nil => intro seen; simp [firstKeysAux]
  | cons a l ih =>
    intro seen
    by_cases ha : a ∈ seen
    · rw [firstKeysAux, if_pos ha, ih]
      constructor
      · exact fun ⟨hl, hs⟩ => ⟨List.mem_cons_of_mem _ hl, hs⟩
      · rintro ⟨hl, hs⟩
        rcases List.mem_cons.mp hl with rfl | hl
        · exact absurd ha hs
        · exact ⟨hl, hs⟩
    · rw [firstKeysAux, if_neg ha]
      constructor
      · intro hx
        rcases List.mem_cons.mp hx with rfl | hx
        · exact ⟨List.mem_cons_self _ _, ha⟩
        · obtain ⟨hl, hs⟩ := ih.mp hx
          exact ⟨List.mem_cons_of_mem _ hl, fun hmem => hs (List.mem_cons_of_mem _ hmem)⟩
      · rintro ⟨hl, hs⟩
        rcases List.mem_cons.mp hl with rfl | hl
        · exact List.mem_cons_self _ _
        · by_cases hxa : x = a
          · subst hxa; exact List.mem_cons_self _ _
          · exact List.mem_cons_of_mem _
              (ih.mpr ⟨hl, by simp [List.mem_cons, hxa, hs]⟩)

theorem nodup_firstKeysAux :
    ∀ (l seen : List Bytes), (firstKeysAux seen l).Nodup := by
  intro l
  induction l with
  | nil => intro seen; simp [firstKeysAux]
  | cons a l ih =>
    intro seen
    by_cases ha : a ∈ seen
    · rw [firstKeysAux, if_pos ha]; exact ih seen
    · rw [firstKeysAux, if_neg ha]
      refine List.nodup_cons.mpr ⟨fun hmem => ?_, ih (a :: seen)⟩
      exact (mem_firstKeysAux.mp hmem).2 (List.mem_cons_self _ _)

theorem firstKeysAux_of_nodup :
    ∀ (l seen : List Bytes), l.Nodup → (∀ x ∈ l, x ∉ seen) →
      firstKeysAux seen l = l := by
  intro l
  induction l with
  | nil => intro seen _ _; rfl
  | cons a l ih =>
    intro seen hnd hdisj
    rw [firstKeysAux, if_neg (hdisj a (List.mem_cons_self _ _))]
    rw [ih (a :: seen) (List.nodup_cons.mp hnd).2]
    intro x hx
    rcases List.nodup_cons.mp hnd with ⟨hna, _⟩
    simp only [List.mem_cons]
    rintro (rfl | hmem)
    · exact hna hx
    · exact hdisj x (List.mem_cons_of_mem _ hx) hmem

theorem firstKeys_eq_nil_iff {l : List Bytes} : firstKeys l = [] ↔ l = [] := by
  cases l with
  | nil => simp [firstKeys, firstKeysAux]
  | cons a l => simp [firstKeys, firstKeysAux]

theorem lookupLast_append {V : Type} (ps : List (Bytes × V)) (k : Bytes) (v : V)
    (q : Bytes) :
    lookupLast (ps ++ [(k, v)]) q = if k = q then some v else lookupLast ps q := by
  unfold lookupLast
  rw [List.foldl_append]
  rfl

theorem lookupLast_eq_none_iff {V : Type} :
    ∀ {ps : List (Bytes × V)} {k : Bytes},
      lookupLast ps k = none ↔ k ∉ ps.map Prod.fst := by
  intro ps
  induction ps using List.reverseRecOn with
  | nil => intro k; simp [lookupLast]
  | append_singleton ps p ih =>
    intro k
    rw [show ps ++ [p] = ps ++ [(p.1, p.2)] from by simp, lookupLast_append]
    by_cases hk : p.1 = k
    · subst hk; simp
    · simp [hk, ih, Ne.symm hk]

/-! ## Lemmas about reachability -/

namespace StrMap

variable {V : Type}

theorem reach_congr {s₁ s₂ : List (Node V)}
    (hs : ∀ j : Nat, s₁[j]?.map nodeShape = s₂[j]?.map nodeShape) {i j : Nat}
    (hr : Reach s₁ i j) : Reach s₂ i j := by
  induction hr with
  | refl => exact .refl _
  | left hr hj hnz ih =>
    rename_i j' n
    have hsj := hs j'
    cases h₂ : s₂[j']? with
    | none => rw [hj, h₂] at hsj; simp at hsj
    | some n₂ =>
      rw [hj, h₂] at hsj
      simp [nodeShape, Prod.ext_iff] at hsj
      obtain ⟨e1, e2, e3, e4⟩ := hsj
      rw [e3]
      exact Reach.left ih h₂ (e3 ▸ hnz)
  | right hr hj hnz ih =>
    rename_i j' n
    have hsj := hs j'
    cases h₂ : s₂[j']? with
    | none => rw [hj, h₂] at hsj; simp at hsj
    | some n₂ =>
      rw [hj, h₂] at hsj
      simp [nodeShape, Prod.ext_iff] at hsj
      obtain ⟨e1, e2, e3, e4⟩ := hsj
      rw [e4]
      exact Reach.right ih h₂ (e4 ▸ hnz)

theorem modifyAt_length (store : List (Node V)) (i : Nat) (f : Node V → Node V) :
    (modifyAt store i f).length = store.length := by
  unfold modifyAt
  cases store[i]? <;> simp

theorem map_modifyAt_of_preserve {α : Type} (g : Node V → α)
    {store : List (Node V)} (p : Nat) (f : Node V → Node V)
    (hpres : ∀ n, g (f n) = g n) :
    (modifyAt store p f).map g = store.map g := by
  apply List.ext_getElem?
  intro j
  unfold modifyAt
  cases hs : store[p]? with
  | none => rfl
  | some pn =>
    have hplen : p < store.length := by
      rcases List.getElem?_eq_some.mp hs with ⟨hlt, _⟩
      exact hlt
    rw [List.getElem?_map, List.getElem?_map]
    by_cases hj : j = p
    · subst hj
      rw [List.getElem?_set_eq_of_lt _ hplen, hs]
      simp [hpres]
    · rw [List.getElem?_set_ne (fun hh => hj hh.symm)]

/-- `add_node` always appends the freshly attached node; when the push
reallocates, the relocate-then-`fix_ptr` round trip leaves every steady
state key unchanged. -/
theorem add_node_store {m : StrMap V} (hk : ∀ n ∈ m.store, KeyOk n.key)
    (key : Bytes) (value : V) (hash : Nat) :
    (m.add_node key value hash).store =
      m.store ++ [Node.mkAttached value hash key] := by
  unfold add_node
  by_cases hc : m.store.length < m.cap
  · simp [hc]
  · simp only [hc, if_false]
    congr 1
    have hid : ∀ n ∈ m.store,
        (fun n => { n with key := n.key.relocate.fix_ptr }) n = id n := by
      intro n hn
      simp [Key.fix_relocate _ (hk n hn)]
    rw [List.map_congr_left hid, List.map_id]

/-- Reachability survives linking a fresh node as the left child of a node
whose left slot was empty. -/
theorem reach_attachLeft {store : List (Node V)} {p : Nat} {pn fresh : Node V}
    (hp : store[p]? = some pn) (hpl : pn.left = 0) {i j : Nat}
    (hr : Reach store i j) :
    Reach (modifyAt (store ++ [fresh]) p fun n => { n with left := store.length })
      i j := by
  have hplen : p < store.length := by
    rcases List.getElem?_eq_some.mp hp with ⟨hlt, _⟩
    exact hlt
  have hap : (store ++ [fresh])[p]? = some pn := by
    rw [List.getElem?_append_left hplen]; exact hp
  have hget := modifyAt_getElem hap (fun n => { n with left := store.length })
  induction hr with
  | refl => exact .refl _
  | left hr hj hnz ih =>
    rename_i j' n
    have hj'len : j' < store.length := by
      rcases List.getElem?_eq_some.mp hj with ⟨hlt, _⟩
      exact hlt
    by_cases hjp : j' = p
    · subst hjp
      rw [hp] at hj
      cases hj
      exact absurd hpl hnz
    · have hnew : (modifyAt (store ++ [fresh]) p
          fun n => { n with left := store.length })[j']? = some n := by
        rw [hget j', if_neg hjp, List.getElem?_append_left hj'len, hj]
      exact Reach.left ih hnew hnz
  | right hr hj hnz ih =>
    rename_i j' n
    have hj'len : j' < store.length := by
      rcases List.getElem?_eq_some.mp hj with ⟨hlt, _⟩
      exact hlt
    by_cases hjp : j' = p
    · subst hjp
      rw [hp] at hj
      cases hj
      have hnew : (modifyAt (store ++ [fresh]) j'
          fun n => { n with left := store.length })[j']? =
          some { pn with left := store.length } := by
        rw [hget j', if_pos rfl]
      refine Reach.right (n := { pn with left := store.length }) ih hnew ?_
      exact hnz
    · have hnew : (modifyAt (store ++ [fresh]) p
          fun n => { n with left := store.length })[j']? = some n := by
        rw [hget j', if_neg hjp, List.getElem?_append_left hj'len, hj]
      exact Reach.right ih hnew hnz

/-- Reachability survives linking a fresh node as the right child of a node
whose right slot was empty. -/
theorem reach_attachRight {store : List (Node V)} {p : Nat} {pn fresh : Node V}
    (hp : store[p]? = some pn) (hpr : pn.right = 0) {i j : Nat}
    (hr : Reach store i j) :
    Reach (modifyAt (store ++ [fresh]) p fun n => { n with right := store.length })
      i j := by
  have hplen : p < store.length := by
    rcases List.getElem?_eq_some.mp hp with ⟨hlt, _⟩
    exact hlt
  have hap : (store ++ [fresh])[p]? = some pn := by
    rw [List.getElem?_append_left hplen]; exact hp
  have hget := modifyAt_getElem hap (fun n => { n with right := store.length })
  induction hr with
  | refl => exact .refl _
  | left hr hj hnz ih =>
    rename_i j' n
    have hj'len : j' < store.length := by
      rcases List.getElem?_eq_some.mp hj with ⟨hlt, _⟩
      exact hlt
    by_cases hjp : j' = p
    · subst hjp
      rw [hp] at hj
      cases hj
      have hnew : (modifyAt (store ++ [fresh]) j'
          fun n => { n with right := store.length })[j']? =
          some { pn with right := store.length } := by
        rw [hget j', if_pos rfl]
      refine Reach.left (n := { pn with right := store.length }) ih hnew ?_
      exact hnz
    · have hnew : (modifyAt (store ++ [fresh]) p
          fun n => { n with right := store.length })[j']? = some n := by
        rw [hget j', if_neg hjp, List.getElem?_append_left hj'len, hj]
      exact Reach.left ih hnew hnz
  | right hr hj hnz ih =>
    rename_i j' n
    have hj'len : j' < store.length := by
      rcases List.getElem?_eq_some.mp hj with ⟨hlt, _⟩
      exact hlt
    by_cases hjp : j' = p
    · subst hjp
      rw [hp] at hj
      cases hj
      exact absurd hpr hnz
    · have hnew : (modifyAt (store ++ [fresh]) p
          fun n => { n with right := store.length })[j']? = some n := by
        rw [hget j', if_neg hjp, List.getElem?_append_left hj'len, hj]
      exact Reach.right ih hnew hnz

/-- `get` on a non-empty map, phrased through the shared descent. -/
theorem get_of_ne_empty {m : StrMap V} (h : ¬m.store.length = 0) (q : Bytes) :
    m.get q =
      match probe m.store (hash_key q) q 0 m.store.length with
      | .found j => (m.store[j]?).map (·.value)
      | _ => none := by
  unfold get
  rw [if_neg h]
  exact getLoop_eq_probe _ _

theorem childOk_mono {len i c : Nat} (h : ChildOk len i c) : ChildOk (len + 1) i c := by
  rcases h with hz | ⟨h1, h2⟩
  · exact Or.inl hz
  · exact Or.inr ⟨h1, by omega⟩

/-- One `insert` preserves the build invariant. -/
theorem buildInv_insert {ps : List (Bytes × V)} {m : StrMap V}
    (hinv : BuildInv ps m) (k : Bytes) (v : V) :
    BuildInv (ps ++ [(k, v)]) (m.insert k v) := by
  by_cases hemp : m.store.length = 0
  · -- the map was empty, hence so is the insertion history
    have hstore : m.store = [] := List.length_eq_zero.mp hemp
    have hklist : ps.map Prod.fst = [] := by
      have hkeq := hinv.keys_eq
      rw [keysOf, hstore] at hkeq
      simp only [List.map_nil] at hkeq
      exact firstKeys_eq_nil_iff.mp hkeq.symm
    have hps : ps = [] := List.map_eq_nil_iff.mp hklist
    subst hps
    have hins : m.insert k v =
        { store := [Node.mkAttached v (hash_key k) k],
          cap := if m.cap = 0 then grow_cap m.cap 0 else m.cap } := by
      simp only [insert]
      rw [if_pos hemp]
    rw [hins]
    refine ⟨?_, ?_, ?_, ?_, ?_, ?_⟩
    · simp [keysOf, firstKeys, firstKeysAux, Node.mkAttached, Key.as_bytes_attach]
    · intro q
      by_cases hq : q = k
      · subst hq
        simp [get, getLoop, Node.mkAttached, Key.as_bytes_attach,
          Key.hash_attach, lookupLast]
      · have hcond : ¬(hash_key q = hash_key k ∧ q = k) := fun hc => hq hc.2
        simp only [get, getLoop, List.length_cons, List.length_nil]
        rw [if_neg (by omega)]
        simp only [List.getElem?_cons_zero]
        rw [show (Node.mkAttached v (hash_key k) k).key.hash = hash_key k from
            Key.hash_attach _ _,
          show (Node.mkAttached v (hash_key k) k).key.as_bytes = k from
            Key.as_bytes_attach _ _]
        rw [if_neg hcond]
        have hnone : lookupLast ([] ++ [(k, v)]) q = none := by
          simp only [List.nil_append, lookupLast, List.foldl_cons, List.foldl_nil]
          exact if_neg (fun he => hq he.symm)
        rw [hnone]
        split_ifs <;> rfl
    · intro j n hj
      cases j with
      | zero =>
        simp only [List.getElem?_cons_zero] at hj
        cases hj
        exact ⟨Or.inl rfl, Or.inl rfl⟩
      | succ j => simp at hj
    · intro n hn
      rcases List.mem_singleton.mp hn with rfl
      exact keyOk_attach k
    · intro j n hj
      cases j with
      | zero =>
        simp only [List.getElem?_cons_zero] at hj
        cases hj
        simp [Node.mkAttached, Key.as_bytes_attach, lookupLast]
      | succ j => simp at hj
    · intro j hj
      simp only [List.length_cons, List.length_nil] at hj
      interval_cases j
      exact .refl 0
  · -- non-empty map
    have hlen0 : 0 < m.store.length := Nat.pos_of_ne_zero hemp
    have hns : probe m.store (hash_key k) k 0 m.store.length ≠ .stuck :=
      probe_no_stuck hinv.store_ok hlen0 (by omega)
    cases hr : probe m.store (hash_key k) k 0 m.store.length with
    | stuck => exact absurd hr hns
    | found i =>
      obtain ⟨ni, hni, hnih, hnib⟩ := probe_found_spec hr
      have hins : (m.insert k v).store =
          modifyAt m.store i fun n => { n with value := v } := by
        simp only [insert]
        rw [if_neg hemp, hr]
      have hshape : ∀ j : Nat,
          (modifyAt m.store i fun n => { n with value := v })[j]?.map nodeShape
            = m.store[j]?.map nodeShape := by
        intro j
        rw [modifyAt_getElem hni]
        by_cases hj : j = i
        · subst hj
          rw [if_pos rfl, hni]
          simp [nodeShape]
        · rw [if_neg hj]
      have hkmem : k ∈ ps.map Prod.fst := by
        have hm1 : k ∈ m.keysOf := by
          rw [keysOf]
          refine List.mem_map.mpr ⟨ni, ?_, hnib⟩
          exact List.getElem?_mem hni
        rw [hinv.keys_eq] at hm1
        exact (mem_firstKeysAux.mp hm1).1
      refine ⟨?_, ?_, ?_, ?_, ?_, ?_⟩
      · rw [keysOf, hins,
          map_modifyAt_of_preserve (fun n => n.key.as_bytes) i
            (fun n => { n with value := v }) (fun n => rfl)]
        rw [List.map_append]
        show _ = firstKeysAux [] _
        simp only [List.map_cons, List.map_nil]
        rw [firstKeysAux_append, if_pos (Or.inr hkmem), List.append_nil]
        exact hinv.keys_eq
      · intro q
        have hlen2 : ¬(m.insert k v).store.length = 0 := by
          rw [hins, modifyAt_length]; exact hemp
        rw [get_of_ne_empty hlen2, hins, modifyAt_length,
          probe_congr hshape]
        by_cases hq : q = k
        · subst hq
          rw [hr, lookupLast_append, if_pos rfl]
          simp [modifyAt_getElem hni]
        · rw [lookupLast_append, if_neg (fun he => hq he.symm),
            ← hinv.get_eq q, get_of_ne_empty hemp]
          cases hq2 : probe m.store (hash_key q) q 0 m.store.length with
          | stuck => rfl
          | goLeft p' => rfl
          | goRight p' => rfl
          | found j =>
            obtain ⟨nj, hnj, hnjh, hnjb⟩ := probe_found_spec hq2
            have hji : j ≠ i := by
              intro he
              subst he
              rw [hni] at hnj
              cases hnj
              exact hq (by rw [← hnjb, hnib])
            simp [modifyAt_getElem hni, hji]
      · intro j n hj
        rw [hins, modifyAt_getElem hni] at hj
        rw [hins, modifyAt_length]
        by_cases hj2 : j = i
        · rw [if_pos hj2] at hj
          cases hj
          subst hj2
          exact hinv.store_ok j ni hni
        · rw [if_neg hj2] at hj
          exact hinv.store_ok j n hj
      · intro n hn
        rw [hins] at hn
        unfold modifyAt at hn
        rw [hni] at hn
        rcases List.mem_or_eq_of_mem_set hn with h1 | h1
        · exact hinv.key_ok n h1
        · subst h1
          exact hinv.key_ok ni (List.getElem?_mem hni)
      · intro j n hj
        rw [hins, modifyAt_getElem hni] at hj
        by_cases hj2 : j = i
        · rw [if_pos hj2] at hj
          cases hj
          show lookupLast (ps ++ [(k, v)]) ni.key.as_bytes = some v
          rw [hnib, lookupLast_append, if_pos rfl]
        · rw [if_neg hj2] at hj
          have hjlen : j < m.store.length := by
            rcases List.getElem?_eq_some.mp hj with ⟨hlt, _⟩
            exact hlt
          have hbytes : n.key.as_bytes ≠ k := by
            intro he
            have hnodup : (m.store.map fun n => n.key.as_bytes).Nodup := by
              have hkeq := hinv.keys_eq
              rw [keysOf] at hkeq
              rw [hkeq]
              exact nodup_firstKeysAux _ _
            have hki : (m.store.map fun n => n.key.as_bytes)[i]? = some k := by
              rw [List.getElem?_map, hni]
              simp [hnib]
            have hkj : (m.store.map fun n => n.key.as_bytes)[j]? = some k := by
              rw [List.getElem?_map, hj]
              simp [he]
            exact hj2 (List.getElem?_inj (by simpa using hjlen) hnodup
              (hkj.trans hki.symm))
          rw [lookupLast_append, if_neg (fun he => hbytes he.symm)]
          exact hinv.values_eq j n hj
      · intro j hj
        rw [hins, modifyAt_length] at hj
        rw [hins]
        exact reach_congr (fun j' => (hshape j').symm) (hinv.reach_all j hj)
    | goLeft p =>
      obtain ⟨pn, hpp, hpl, hplt⟩ := probe_goLeft_spec hr
      have hplen : p < m.store.length := by
        rcases List.getElem?_eq_some.mp hpp with ⟨hlt, _⟩
        exact hlt
      have hfb : (Node.mkAttached v (hash_key k) k : Node V).key.as_bytes = k :=
        Key.as_bytes_attach _ _
      have hfh : (Node.mkAttached v (hash_key k) k : Node V).key.hash = hash_key k :=
        Key.hash_attach _ _
      have hins : (m.insert k v).store =
          modifyAt (m.store ++ [Node.mkAttached v (hash_key k) k]) p
            fun n => { n with left := m.store.length } := by
        simp only [insert]
        rw [if_neg hemp, hr, add_node_store hinv.key_ok]
      have hap : (m.store ++ [Node.mkAttached v (hash_key k) k])[p]? = some pn := by
        rw [List.getElem?_append_left hplen]; exact hpp
      have hget := modifyAt_getElem hap (fun n => { n with left := m.store.length })
      have hlen' : (m.insert k v).store.length = m.store.length + 1 := by
        rw [hins, modifyAt_length, List.length_append]
        rfl
      have hfidx : (m.insert k v).store[m.store.length]? =
          some (Node.mkAttached v (hash_key k) k) := by
        rw [hins, hget, if_neg (by omega),
          List.getElem?_append_right (Nat.le_refl _)]
        simp
      have hknot : k ∉ ps.map Prod.fst := by
        intro hmem
        have h1 := hinv.get_eq k
        rw [get_of_ne_empty hemp, hr] at h1
        exact (lookupLast_eq_none_iff.mp h1.symm) hmem
      have hprobe : ∀ (hq : Nat) (q : Bytes),
          probe (m.insert k v).store hq q 0 (m.store.length + 1) =
            match probe m.store hq q 0 m.store.length with
            | .goLeft q' =>
              if q' = p then
                (if hq = (Node.mkAttached v (hash_key k) k : Node V).key.hash ∧
                    q = (Node.mkAttached v (hash_key k) k : Node V).key.as_bytes then
                  Probe.found m.store.length
                 else if hq < (Node.mkAttached v (hash_key k) k : Node V).key.hash then
                  Probe.goLeft m.store.length
                 else Probe.goRight m.store.length)
              else .goLeft q'
            | r => r := by
        intro hq q
        rw [hins]
        exact probe_attachLeft hpp hpl rfl rfl
          (probe_no_stuck hinv.store_ok hlen0 (by omega))
      refine ⟨?_, ?_, ?_, ?_, ?_, ?_⟩
      · rw [keysOf, hins,
          map_modifyAt_of_preserve (fun n => n.key.as_bytes) p
            (fun n => { n with left := m.store.length }) (fun n => rfl)]
        rw [List.map_append]
        show _ = firstKeysAux [] _
        simp only [List.map_append, List.map_cons, List.map_nil]
        rw [firstKeysAux_append, if_neg (by simp [hknot]), hfb]
        rw [show (List.map (fun n => n.key.as_bytes) m.store) = firstKeysAux []
          (List.map Prod.fst ps) from hinv.keys_eq]
      · intro q
        have hlen2 : ¬(m.insert k v).store.length = 0 := by rw [hlen']; omega
        rw [get_of_ne_empty hlen2, hlen', hprobe]
        by_cases hq : q = k
        · subst hq
          rw [hr]
          have hc : hash_key q = (Node.mkAttached v (hash_key q) q : Node V).key.hash ∧
              q = (Node.mkAttached v (hash_key q) q : Node V).key.as_bytes :=
            ⟨hfh.symm, hfb.symm⟩
          simp only [if_pos rfl, if_pos hc]
          show ((m.insert q v).store[m.store.length]?).map (·.value) = _
          rw [hfidx, lookupLast_append, if_pos rfl]
          rfl
        · rw [lookupLast_append,
            if_neg (show ¬(k = q) from fun he => hq he.symm), ← hinv.get_eq q,
            get_of_ne_empty hemp]
          cases hq2 : probe m.store (hash_key q) q 0 m.store.length with
          | stuck => rfl
          | found j =>
            have hjlen : j < m.store.length := by
              obtain ⟨nj, hnj, _, _⟩ := probe_found_spec hq2
              rcases List.getElem?_eq_some.mp hnj with ⟨hlt, _⟩
              exact hlt
            show ((m.insert k v).store[j]?).map (·.value) =
              (m.store[j]?).map (·.value)
            by_cases hjp : j = p
            · subst hjp
              rw [hins, hget, if_pos rfl, hpp]
              rfl
            · rw [hins, hget, if_neg hjp, List.getElem?_append_left hjlen]
          | goLeft p' =>
            by_cases hpp' : p' = p
            · subst hpp'
              have hc : ¬(hash_key q =
                  (Node.mkAttached v (hash_key k) k : Node V).key.hash ∧
                  q = (Node.mkAttached v (hash_key k) k : Node V).key.as_bytes) := by
                rw [hfb]
                exact fun hc => hq hc.2
              simp only [if_pos rfl, if_neg hc]
              split_ifs <;> rfl
            · simp only [if_neg hpp']
          | goRight p' => rfl
      · intro j n hj
        rw [hins, hget] at hj
        rw [hlen']
        by_cases hjp : j = p
        · rw [if_pos hjp] at hj
          cases hj
          subst hjp
          constructor
          · refine Or.inr ⟨hplen, ?_⟩
            show m.store.length < m.store.length + 1
            omega
          · exact childOk_mono (hinv.store_ok j pn hpp).2
        · rw [if_neg hjp] at hj
          by_cases hjlen : j < m.store.length
          · rw [List.getElem?_append_left hjlen] at hj
            exact ⟨childOk_mono (hinv.store_ok j n hj).1,
              childOk_mono (hinv.store_ok j n hj).2⟩
          · have hjlt : j < m.store.length + 1 := by
              rcases List.getElem?_eq_some.mp hj with ⟨hlt, _⟩
              simpa using hlt
            have hj2 : j = m.store.length := by omega
            subst hj2
            rw [List.getElem?_append_right (Nat.le_refl _)] at hj
            simp only [Nat.sub_self, List.getElem?_cons_zero] at hj
            cases hj
            exact ⟨Or.inl rfl, Or.inl rfl⟩
      · intro n hn
        rw [hins] at hn
        unfold modifyAt at hn
        rw [hap] at hn
        rcases List.mem_or_eq_of_mem_set hn with h1 | h1
        · rcases List.mem_append.mp h1 with h2 | h2
          · exact hinv.key_ok n h2
          · rcases List.mem_singleton.mp h2 with rfl
            exact keyOk_attach k
        · subst h1
          exact hinv.key_ok pn (List.getElem?_mem hpp)
      · intro j n hj
        rw [hins, hget] at hj
        by_cases hjp : j = p
        · rw [if_pos hjp] at hj
          cases hj
          show lookupLast (ps ++ [(k, v)]) pn.key.as_bytes = some pn.value
          have hpb : pn.key.as_bytes ≠ k := by
            intro he
            apply hknot
            have hmem : pn.key.as_bytes ∈ m.keysOf := by
              rw [keysOf]
              exact List.mem_map.mpr ⟨pn, List.getElem?_mem hpp, rfl⟩
            rw [hinv.keys_eq] at hmem
            exact he ▸ (mem_firstKeysAux.mp hmem).1
          rw [lookupLast_append, if_neg (fun he => hpb he.symm)]
          exact hinv.values_eq p pn hpp
        · rw [if_neg hjp] at hj
          by_cases hjlen : j < m.store.length
          · rw [List.getElem?_append_left hjlen] at hj
            have hnb : n.key.as_bytes ≠ k := by
              intro he
              apply hknot
              have hmem : n.key.as_bytes ∈ m.keysOf := by
                rw [keysOf]
                exact List.mem_map.mpr ⟨n, List.getElem?_mem hj, rfl⟩
              rw [hinv.keys_eq] at hmem
              exact he ▸ (mem_firstKeysAux.mp hmem).1
            rw [lookupLast_append, if_neg (fun he => hnb he.symm)]
            exact hinv.values_eq j n hj
          · have hjlt : j < m.store.length + 1 := by
              rcases List.getElem?_eq_some.mp hj with ⟨hlt, _⟩
              simpa using hlt
            have hj2 : j = m.store.length := by omega
            subst hj2
            rw [List.getElem?_append_right (Nat.le_refl _)] at hj
            simp only [Nat.sub_self, List.getElem?_cons_zero] at hj
            cases hj
            show lookupLast (ps ++ [(k, v)])
              (Node.mkAttached v (hash_key k) k : Node V).key.as_bytes = some _
            rw [hfb, lookupLast_append, if_pos rfl]
            rfl
      · intro j hj
        rw [hlen'] at hj
        rw [hins]
        by_cases hjlen : j < m.store.length
        · exact reach_attachLeft hpp hpl (hinv.reach_all j hjlen)
        · have hj2 : j = m.store.length := by omega
          subst hj2
          have hrp : Reach (modifyAt (m.store ++ [Node.mkAttached v (hash_key k) k])
              p fun n => { n with left := m.store.length }) 0 p :=
            reach_attachLeft hpp hpl (hinv.reach_all p hplen)
          have hpidx : (modifyAt (m.store ++ [Node.mkAttached v (hash_key k) k]) p
              fun n => { n with left := m.store.length })[p]? =
              some { pn with left := m.store.length } := by
            rw [hget, if_pos rfl]
          exact Reach.left (n := { pn with left := m.store.length }) hrp hpidx hemp
    | goRight p =>
      obtain ⟨pn, hpp, hpr, hcnd, hnlt⟩ := probe_goRight_spec hr
      have hplen : p < m.store.length := by
        rcases List.getElem?_eq_some.mp hpp with ⟨hlt, _⟩
        exact hlt
      have hfb : (Node.mkAttached v (hash_key k) k : Node V).key.as_bytes = k :=
        Key.as_bytes_attach _ _
      have hfh : (Node.mkAttached v (hash_key k) k : Node V).key.hash = hash_key k :=
        Key.hash_attach _ _
      have hins : (m.insert k v).store =
          modifyAt (m.store ++ [Node.mkAttached v (hash_key k) k]) p
            fun n => { n with right := m.store.length } := by
        simp only [insert]
        rw [if_neg hemp, hr, add_node_store hinv.key_ok]
      have hap : (m.store ++ [Node.mkAttached v (hash_key k) k])[p]? = some pn := by
        rw [List.getElem?_append_left hplen]; exact hpp
      have hget := modifyAt_getElem hap (fun n => { n with right := m.store.length })
      have hlen' : (m.insert k v).store.length = m.store.length + 1 := by
        rw [hins, modifyAt_length, List.length_append]
        rfl
      have hfidx : (m.insert k v).store[m.store.length]? =
          some (Node.mkAttached v (hash_key k) k) := by
        rw [hins, hget, if_neg (by omega),
          List.getElem?_append_right (Nat.le_refl _)]
        simp
      have hknot : k ∉ ps.map Prod.fst := by
        intro hmem
        have h1 := hinv.get_eq k
        rw [get_of_ne_empty hemp, hr] at h1
        exact (lookupLast_eq_none_iff.mp h1.symm) hmem
      have hprobe : ∀ (hq : Nat) (q : Bytes),
          probe (m.insert k v).store hq q 0 (m.store.length + 1) =
            match probe m.store hq q 0 m.store.length with
            | .goRight q' =>
              if q' = p then
                (if hq = (Node.mkAttached v (hash_key k) k : Node V).key.hash ∧
                    q = (Node.mkAttached v (hash_key k) k : Node V).key.as_bytes then
                  Probe.found m.store.length
                 else if hq < (Node.mkAttached v (hash_key k) k : Node V).key.hash then
                  Probe.goLeft m.store.length
                 else Probe.goRight m.store.length)
              else .goRight q'
            | r => r := by
        intro hq q
        rw [hins]
        exact probe_attachRight hpp hpr rfl rfl
          (probe_no_stuck hinv.store_ok hlen0 (by omega))
      refine ⟨?_, ?_, ?_, ?_, ?_, ?_⟩
      · rw [keysOf, hins,
          map_modifyAt_of_preserve (fun n => n.key.as_bytes) p
            (fun n => { n with right := m.store.length }) (fun n => rfl)]
        rw [List.map_append]
        show _ = firstKeysAux [] _
        simp only [List.map_append, List.map_cons, List.map_nil]
        rw [firstKeysAux_append, if_neg (by simp [hknot]), hfb]
        rw [show (List.map (fun n => n.key.as_bytes) m.store) = firstKeysAux []
          (List.map Prod.fst ps) from hinv.keys_eq]
      · intro q
        have hlen2 : ¬(m.insert k v).store.length = 0 := by rw [hlen']; omega
        rw [get_of_ne_empty hlen2, hlen', hprobe]
        by_cases hq : q = k
        · subst hq
          rw [hr]
          have hc : hash_key q = (Node.mkAttached v (hash_key q) q : Node V).key.hash ∧
              q = (Node.mkAttached v (hash_key q) q : Node V).key.as_bytes :=
            ⟨hfh.symm, hfb.symm⟩
          simp only [if_pos rfl, if_pos hc]
          show ((m.insert q v).store[m.store.length]?).map (·.value) = _
          rw [hfidx, lookupLast_append, if_pos rfl]
          rfl
        · rw [lookupLast_append,
            if_neg (show ¬(k = q) from fun he => hq he.symm), ← hinv.get_eq q,
            get_of_ne_empty hemp]
          cases hq2 : probe m.store (hash_key q) q 0 m.store.length with
          | stuck => rfl
          | found j =>
            have hjlen : j < m.store.length := by
              obtain ⟨nj, hnj, _, _⟩ := probe_found_spec hq2
              rcases List.getElem?_eq_some.mp hnj with ⟨hlt, _⟩
              exact hlt
            show ((m.insert k v).store[j]?).map (·.value) =
              (m.store[j]?).map (·.value)
            by_cases hjp : j = p
            · subst hjp
              rw [hins, hget, if_pos rfl, hpp]
              rfl
            · rw [hins, hget, if_neg hjp, List.getElem?_append_left hjlen]
          | goRight p' =>
            by_cases hpp' : p' = p
            · subst hpp'
              have hc : ¬(hash_key q =
                  (Node.mkAttached v (hash_key k) k : Node V).key.hash ∧
                  q = (Node.mkAttached v (hash_key k) k : Node V).key.as_bytes) := by
                rw [hfb]
                exact fun hc => hq hc.2
              simp only [if_pos rfl, if_neg hc]
              split_ifs <;> rfl
            · simp only [if_neg hpp']
          | goLeft p' => rfl
      · intro j n hj
        rw [hins, hget] at hj
        rw [hlen']
        by_cases hjp : j = p
        · rw [if_pos hjp] at hj
          cases hj
          subst hjp
          constructor
          · exact childOk_mono (hinv.store_ok j pn hpp).1
          · refine Or.inr ⟨hplen, ?_⟩
            show m.store.length < m.store.length + 1
            omega
        · rw [if_neg hjp] at hj
          by_cases hjlen : j < m.store.length
          · rw [List.getElem?_append_left hjlen] at hj
            exact ⟨childOk_mono (hinv.store_ok j n hj).1,
              childOk_mono (hinv.store_ok j n hj).2⟩
          · have hjlt : j < m.store.length + 1 := by
              rcases List.getElem?_eq_some.mp hj with ⟨hlt, _⟩
              simpa using hlt
            have hj2 : j = m.store.length := by omega
            subst hj2
            rw [List.getElem?_append_right (Nat.le_refl _)] at hj
            simp only [Nat.sub_self, List.getElem?_cons_zero] at hj
            cases hj
            exact ⟨Or.inl rfl, Or.inl rfl⟩
      · intro n hn
        rw [hins] at hn
        unfold modifyAt at hn
        rw [hap] at hn
        rcases List.mem_or_eq_of_mem_set hn with h1 | h1
        · rcases List.mem_append.mp h1 with h2 | h2
          · exact hinv.key_ok n h2
          · rcases List.mem_singleton.mp h2 with rfl
            exact keyOk_attach k
        · subst h1
          exact hinv.key_ok pn (List.getElem?_mem hpp)
      · intro j n hj
        rw [hins, hget] at hj
        by_cases hjp : j = p
        · rw [if_pos hjp] at hj
          cases hj
          show lookupLast (ps ++ [(k, v)]) pn.key.as_bytes = some pn.value
          have hpb : pn.key.as_bytes ≠ k := by
            intro he
            apply hknot
            have hmem : pn.key.as_bytes ∈ m.keysOf := by
              rw [keysOf]
              exact List.mem_map.mpr ⟨pn, List.getElem?_mem hpp, rfl⟩
            rw [hinv.keys_eq] at hmem
            exact he ▸ (mem_firstKeysAux.mp hmem).1
          rw [lookupLast_append, if_neg (fun he => hpb he.symm)]
          exact hinv.values_eq p pn hpp
        · rw [if_neg hjp] at hj
          by_cases hjlen : j < m.store.length
          · rw [List.getElem?_append_left hjlen] at hj
            have hnb : n.key.as_bytes ≠ k := by
              intro he
              apply hknot
              have hmem : n.key.as_bytes ∈ m.keysOf := by
                rw [keysOf]
                exact List.mem_map.mpr ⟨n, List.getElem?_mem hj, rfl⟩
              rw [hinv.keys_eq] at hmem
              exact he ▸ (mem_firstKeysAux.mp hmem).1
            rw [lookupLast_append, if_neg (fun he => hnb he.symm)]
            exact hinv.values_eq j n hj
          · have hjlt : j < m.store.length + 1 := by
              rcases List.getElem?_eq_some.mp hj with ⟨hlt, _⟩
              simpa using hlt
            have hj2 : j = m.store.length := by omega
            subst hj2
            rw [List.getElem?_append_right (Nat.le_refl _)] at hj
            simp only [Nat.sub_self, List.getElem?_cons_zero] at hj
            cases hj
            show lookupLast (ps ++ [(k, v)])
              (Node.mkAttached v (hash_key k) k : Node V).key.as_bytes = some _
            rw [hfb, lookupLast_append, if_pos rfl]
            rfl
      · intro j hj
        rw [hlen'] at hj
        rw [hins]
        by_cases hjlen : j < m.store.length
        · exact reach_attachRight hpp hpr (hinv.reach_all j hjlen)
        · have hj2 : j = m.store.length := by omega
          subst hj2
          have hrp : Reach (modifyAt (m.store ++ [Node.mkAttached v (hash_key k) k])
              p fun n => { n with right := m.store.length }) 0 p :=
            reach_attachRight hpp hpr (hinv.reach_all p hplen)
          have hpidx : (modifyAt (m.store ++ [Node.mkAttached v (hash_key k) k]) p
              fun n => { n with right := m.store.length })[p]? =
              some { pn with right := m.store.length } := by
            rw [hget, if_pos rfl]
          exact Reach.right (n := { pn with right := m.store.length }) hrp hpidx hemp

/-- A freshly created map (any capacity) satisfies the invariant of the
empty insertion history. -/
theorem buildInv_empty (m : StrMap V) (h : m.store = []) : BuildInv [] m := by
  refine ⟨?_, ?_, ?_, ?_, ?_, ?_⟩
  · rw [keysOf, h]; rfl
  · intro q
    rw [get, if_pos (by rw [h]; rfl)]
    rfl
  · intro i n hi; rw [h] at hi; simp at hi
  · intro n hn; rw [h] at hn; simp at hn
  · intro j n hj; rw [h] at hj; simp at hj
  · intro j hj; rw [h] at hj; simp at hj

/-- Every map built by a sequence of inserts on a fresh map satisfies the
build invariant. -/
theorem buildInv_buildMapFrom (m : StrMap V) (h : m.store = [])
    (ps : List (Bytes × V)) : BuildInv ps (buildMapFrom m ps) := by
  induction ps using List.reverseRecOn with
  | nil => exact buildInv_empty m h
  | append_singleton ps q ih =>
    obtain ⟨k, v⟩ := q
    rw [buildMapFrom, List.foldl_append]
    exact buildInv_insert ih k v

/-- Every map built by a sequence of inserts on `StrMap::new()` satisfies
the build invariant. -/
theorem buildInv_buildMap (ps : List (Bytes × V)) : BuildInv ps (buildMap ps) :=
  buildInv_buildMapFrom _ rfl ps

theorem eraseIdx_map {α β : Type} (f : α → β) (l : List α) (i : Nat) :
    (l.eraseIdx i).map f = (l.map f).eraseIdx i := by
  induction l generalizing i with
  | nil => rfl
  | cons a l ih =>
    cases i with
    | zero => rfl
    | succ i => simp [List.eraseIdx, ih]

theorem not_mem_eraseIdx_of_nodup {α : Type} {l : List α} {i : Nat} {a : α}
    (hnd : l.Nodup) (hi : l[i]? = some a) : a ∉ l.eraseIdx i := by
  intro hmem
  obtain ⟨j, hj⟩ := List.getElem?_of_mem hmem
  rw [List.getElem?_eraseIdx] at hj
  have hilen : i < l.length := by
    rcases List.getElem?_eq_some.mp hi with ⟨hlt, _⟩
    exact hlt
  by_cases hlt : j < i
  · rw [if_pos hlt] at hj
    have := List.getElem?_inj hilen hnd (hi.trans hj.symm)
    omega
  · rw [if_neg hlt] at hj
    have hjlen : j + 1 < l.length := by
      rcases List.getElem?_eq_some.mp hj with ⟨hlt2, _⟩
      exact hlt2
    have := List.getElem?_inj hilen hnd (hi.trans hj.symm)
    omega

/-- The keys of a map built by inserts, as a plain list, have no
duplicates. -/
theorem keysOf_nodup (ps : List (Bytes × V)) : (buildMap ps).keysOf.Nodup := by
  rw [(buildInv_buildMap ps).keys_eq]
  exact nodup_firstKeysAux _ _

/-- `get_mut` locates exactly the value `get` returns. -/
theorem get_mut_eq_get (m : StrMap V) (k : Bytes) : m.get_mut k = m.get k := by
  unfold get_mut get_mut_idx StrMap.get
  by_cases hemp : m.store.length = 0
  · rw [if_pos hemp, if_pos hemp]
    rfl
  · rw [if_neg hemp, if_neg hemp, findLoop_eq_probe, getLoop_eq_probe]
    cases probe m.store (hash_key k) k 0 m.store.length <;> rfl

end StrMap

open StrMap

theorem firstKeys_pair {a b : Bytes} (hab : a ≠ b) :
    firstKeysAux [] [a, b] = [a, b] := by
  have hba : ¬b = a := fun he => hab he.symm
  simp [firstKeysAux, hba]

/-! ## The claims -/

/-- C1: For every sequence of `insert` calls, iterating the map yields the
entries in the exact order their keys were first inserted (regardless of
hash values, which never enter the statement); and an insert with a key
already present overwrites that entry's value in place, changing neither
the iteration order of the keys nor the map's length. -/
theorem claim_C1_insertion_order {V : Type} (ps : List (Bytes × V)) :
    (buildMap ps).keysOf = firstKeys (ps.map Prod.fst) ∧
    (∀ (k : Bytes) (v : V), (buildMap ps).get k ≠ none →
      ((buildMap ps).insert k v).keysOf = (buildMap ps).keysOf ∧
      ((buildMap ps).insert k v).len = (buildMap ps).len ∧
      ((buildMap ps).insert k v).get k = some v) := by
  have hinv := buildInv_buildMap ps
  refine ⟨hinv.keys_eq, ?_⟩
  intro k v hget
  have hinv' := buildInv_insert hinv k v
  have hkmem : k ∈ ps.map Prod.fst := by
    by_contra hmem
    exact hget (by rw [hinv.get_eq k]; exact lookupLast_eq_none_iff.mpr hmem)
  have hkeys : ((buildMap ps).insert k v).keysOf = (buildMap ps).keysOf := by
    rw [hinv'.keys_eq, hinv.keys_eq]
    show firstKeysAux [] _ = firstKeysAux [] _
    simp only [List.map_append, List.map_cons, List.map_nil]
    rw [firstKeysAux_append, if_pos (Or.inr hkmem), List.append_nil]
  refine ⟨hkeys, ?_, ?_⟩
  · show ((buildMap ps).insert k v).store.length = (buildMap ps).store.length
    have e1 : ((buildMap ps).insert k v).store.length
        = ((buildMap ps).insert k v).keysOf.length := by
      rw [keysOf, List.length_map]
    have e2 : (buildMap ps).store.length = (buildMap ps).keysOf.length := by
      rw [keysOf, List.length_map]
    rw [e1, e2, hkeys]
  · rw [hinv'.get_eq k, lookupLast_append, if_pos rfl]

/-- C2: `get` and `get_mut` perform exactly the same hash-guided descent as
`insert` (left on strictly smaller hash, right on greater hash and on
equal hash with different bytes, value returned on a full match, absent
when the branch to follow does not exist); consequently, on a map built by
any insert sequence, `get` returns the most recently inserted value for
every inserted key and `none` for every key never inserted. -/
theorem claim_C2_get_follows_insert_descent {V : Type} :
    (∀ (store : List (Node V)) (h : Nat) (k : Bytes) (fuel idx : Nat),
      getLoop store h k idx fuel =
        match probe store h k idx fuel with
        | .found j => (store[j]?).map (·.value)
        | _ => none) ∧
    (∀ (store : List (Node V)) (h : Nat) (k : Bytes) (fuel idx : Nat),
      findLoop store h k idx fuel =
        match probe store h k idx fuel with
        | .found j => some j
        | _ => none) ∧
    (∀ (m : StrMap V) (k : Bytes), m.get_mut k = m.get k) ∧
    (∀ (ps : List (Bytes × V)) (k : Bytes),
      (buildMap ps).get k = lookupLast ps k) :=
  ⟨fun store h k fuel idx => getLoop_eq_probe fuel idx,
    fun store h k fuel idx => findLoop_eq_probe fuel idx,
    fun m k => get_mut_eq_get m k,
    fun ps k => (buildInv_buildMap ps).get_eq k⟩

/-- C3: on a map built by inserts, removing a present key returns its
stored value, after which `get` on that key is absent, the length has
dropped by exactly one, and the iteration order of the remaining keys is
the old order with just the removed key's position erased; removing an
absent key returns absent and leaves the map untouched. -/
theorem claim_C3_remove {V : Type} (ps : List (Bytes × V)) (k : Bytes) :
    (∀ v : V, (buildMap ps).get k = some v →
      ((buildMap ps).remove k).1 = some v ∧
      ((buildMap ps).remove k).2.get k = none ∧
      ((buildMap ps).remove k).2.len + 1 = (buildMap ps).len ∧
      (∃ i : Nat, (buildMap ps).keysOf[i]? = some k ∧
        ((buildMap ps).remove k).2.keysOf = (buildMap ps).keysOf.eraseIdx i)) ∧
    ((buildMap ps).get k = none → (buildMap ps).remove k = (none, buildMap ps)) := by
  have hinv := buildInv_buildMap ps
  constructor
  · intro v hget
    by_cases hemp : (buildMap ps).store.length = 0
    · rw [StrMap.get, if_pos hemp] at hget
      cases hget
    · rw [get_of_ne_empty hemp] at hget
      cases hp : probe (buildMap ps).store (hash_key k) k 0
          (buildMap ps).store.length with
      | stuck => rw [hp] at hget; cases hget
      | goLeft p => rw [hp] at hget; cases hget
      | goRight p => rw [hp] at hget; cases hget
      | found i =>
        rw [hp] at hget
        obtain ⟨ni, hni, hnih, hnib⟩ := probe_found_spec hp
        have hilen : i < (buildMap ps).store.length := by
          rcases List.getElem?_eq_some.mp hni with ⟨hlt, _⟩
          exact hlt
        have hfold : ((buildMap ps).store.eraseIdx i).foldl
            (fun acc n => acc.insert n.key.as_bytes n.value)
            (with_capacity V ((buildMap ps).store.length - 1)) =
            buildMapFrom (with_capacity V ((buildMap ps).store.length - 1))
              (((buildMap ps).store.eraseIdx i).map
                fun n => (n.key.as_bytes, n.value)) := by
          rw [buildMapFrom, List.foldl_map]
        have hrem1 : ((buildMap ps).remove k).1 =
            ((buildMap ps).store[i]?).map (·.value) := by
          unfold remove
          rw [if_neg hemp, findLoop_eq_probe, hp]
        have hrem2 : ((buildMap ps).remove k).2 =
            buildMapFrom (with_capacity V ((buildMap ps).store.length - 1))
              (((buildMap ps).store.eraseIdx i).map
                fun n => (n.key.as_bytes, n.value)) := by
          unfold remove
          rw [if_neg hemp, findLoop_eq_probe, hp]
          exact hfold
        have hinv2 := buildInv_buildMapFrom
          (with_capacity V ((buildMap ps).store.length - 1)) rfl
          (((buildMap ps).store.eraseIdx i).map fun n => (n.key.as_bytes, n.value))
        have hqkeys : (((buildMap ps).store.eraseIdx i).map
            fun n => (n.key.as_bytes, n.value)).map Prod.fst =
            (buildMap ps).keysOf.eraseIdx i := by
          rw [List.map_map]
          show ((buildMap ps).store.eraseIdx i).map (fun n => n.key.as_bytes) = _
          rw [eraseIdx_map]
          rfl
        have hknodup := keysOf_nodup ps
        have hki : (buildMap ps).keysOf[i]? = some k := by
          rw [keysOf, List.getElem?_map, hni]
          simp [hnib]
        have hkerase : k ∉ (buildMap ps).keysOf.eraseIdx i :=
          not_mem_eraseIdx_of_nodup hknodup hki
        have hqnodup : ((buildMap ps).keysOf.eraseIdx i).Nodup :=
          hknodup.sublist (List.eraseIdx_sublist _ i)
        have hreskeys : (((buildMap ps).remove k).2).keysOf =
            (buildMap ps).keysOf.eraseIdx i := by
          rw [hrem2, hinv2.keys_eq, hqkeys]
          show firstKeysAux [] _ = _
          rw [firstKeysAux_of_nodup _ _ hqnodup (by simp)]
        refine ⟨?_, ?_, ?_, ⟨i, hki, hreskeys⟩⟩
        · rw [hrem1]
          exact hget
        · rw [hrem2, hinv2.get_eq k, lookupLast_eq_none_iff, hqkeys]
          exact hkerase
        · show (((buildMap ps).remove k).2).store.length + 1
            = (buildMap ps).store.length
          have e1 : (((buildMap ps).remove k).2).store.length
              = (((buildMap ps).remove k).2).keysOf.length := by
            rw [keysOf, List.length_map]
          have e2 : (buildMap ps).store.length = (buildMap ps).keysOf.length := by
            rw [keysOf, List.length_map]
          rw [e1, e2, hreskeys, List.length_eraseIdx_of_lt (by
            rw [keysOf, List.length_map]; exact hilen)]
          have : 0 < (buildMap ps).keysOf.length := by
            rw [keysOf, List.length_map]; omega
          omega
  · intro hget
    unfold remove
    by_cases hemp : (buildMap ps).store.length = 0
    · rw [if_pos hemp]
    · rw [if_neg hemp, findLoop_eq_probe]
      rw [get_of_ne_empty hemp] at hget
      cases hp : probe (buildMap ps).store (hash_key k) k 0
          (buildMap ps).store.length with
      | stuck => rfl
      | goLeft p => rfl
      | goRight p => rfl
      | found j =>
        rw [hp] at hget
        obtain ⟨nj, hnj, _, _⟩ := probe_found_spec hp
        have hget2 : ((buildMap ps).store[j]?).map (·.value) = none := hget
        rw [hnj] at hget2
        cases hget2

/-- C4: every map reachable by a sequence of inserts keeps the first
inserted key's node at index `0`, never stores index `0` as a real child
(every non-sentinel child index is strictly greater than its parent's
index, hence nonzero), keeps every node connected to the tree rooted at
index `0` through left/right links, and holds no two nodes with equal
(hash, key-bytes) pairs. -/
theorem claim_C4_structural_invariants {V : Type} (ps : List (Bytes × V)) :
    (buildMap ps).keysOf.head? = (ps.map Prod.fst).head? ∧
    (∀ (i : Nat) (n : Node V), (buildMap ps).store[i]? = some n →
      (n.left ≠ 0 → i < n.left ∧ n.left < (buildMap ps).store.length) ∧
      (n.right ≠ 0 → i < n.right ∧ n.right < (buildMap ps).store.length)) ∧
    (∀ j < (buildMap ps).store.length, Reach (buildMap ps).store 0 j) ∧
    ((buildMap ps).store.map fun n => (n.key.hash, n.key.as_bytes)).Nodup := by
  have hinv := buildInv_buildMap ps
  refine ⟨?_, ?_, hinv.reach_all, ?_⟩
  · rw [hinv.keys_eq]
    cases hps : ps.map Prod.fst with
    | nil => rfl
    | cons a l =>
      show (firstKeysAux [] (a :: l)).head? = _
      rw [firstKeysAux, if_neg (by simp)]
      rfl
  · intro i n hn
    constructor
    · intro hlz
      rcases (hinv.store_ok i n hn).1 with hz | hlt
      · exact absurd hz hlz
      · exact hlt
    · intro hrz
      rcases (hinv.store_ok i n hn).2 with hz | hlt
      · exact absurd hz hrz
      · exact hlt
  · have hnd := keysOf_nodup ps
    refine List.Nodup.of_map Prod.snd ?_
    have hmm : (((buildMap ps).store.map fun n => (n.key.hash, n.key.as_bytes)).map
        Prod.snd) = (buildMap ps).keysOf := by
      rw [List.map_map]
      rfl
    rw [hmm]
    exact hnd

/-- C5: keys of byte length at or under the inline threshold of 32 bytes
are stored inline in the owning record (cached pointer to the record's own
buffer), longer keys in a separately owned heap buffer; and on a map built
by any insert sequence --- however many pushes grew and relocated the
backing storage --- `get` on a long key, like on every key, still returns
the most recently stored value. -/
theorem claim_C5_inline_and_heap_keys {V : Type} (ps : List (Bytes × V)) :
    (∀ n ∈ (buildMap ps).store,
      (n.key.len ≤ 32 →
        n.key.ptr = Ptr.inline ∧ n.key.as_bytes = n.key.buf.take n.key.len) ∧
      (32 < n.key.len →
        n.key.ptr = Ptr.heap ∧ n.key.as_bytes = n.key.heapBuf.take n.key.len)) ∧
    (∀ k : Bytes, 32 < k.length → (buildMap ps).get k = lookupLast ps k) := by
  have hinv := buildInv_buildMap ps
  refine ⟨?_, fun k _ => hinv.get_eq k⟩
  intro n hn
  have hko := hinv.key_ok n hn
  constructor
  · intro hle
    have h1 := hko.1 hle
    refine ⟨h1.1, ?_⟩
    rw [Key.as_bytes, h1.1]
  · intro hlt
    have h2 := hko.2.1 hlt
    refine ⟨h2.1, ?_⟩
    rw [Key.as_bytes, h2.1]

/-- C6: map equality is order-independent --- two maps built by insert
sequences compare equal exactly when they have the same member count and
associate every key to the same latest value; in particular inserting
`a` then `b` yields a map equal to the one obtained by inserting `b` then
`a`. -/
theorem claim_C6_order_independent_equality {V : Type} :
    (∀ ps qs : List (Bytes × V),
      mapEq (buildMap ps) (buildMap qs) ↔
        ((buildMap ps).len = (buildMap qs).len ∧
          ∀ k : Bytes, lookupLast ps k = lookupLast qs k)) ∧
    (∀ (a b : Bytes) (x y : V), a ≠ b →
      mapEq (buildMap [(a, x), (b, y)]) (buildMap [(b, y), (a, x)])) := by
  have main : ∀ ps qs : List (Bytes × V),
      mapEq (buildMap ps) (buildMap qs) ↔
        ((buildMap ps).len = (buildMap qs).len ∧
          ∀ k : Bytes, lookupLast ps k = lookupLast qs k) := by
    intro ps qs
    have hinv1 := buildInv_buildMap ps
    have hinv2 := buildInv_buildMap qs
    constructor
    · rintro ⟨hlen, hall⟩
      refine ⟨hlen, ?_⟩
      have hsub : (buildMap ps).keysOf ⊆ (buildMap qs).keysOf := by
        intro x hx
        obtain ⟨n, hn, hb⟩ := List.mem_map.mp hx
        have hget2 := hall n hn
        rw [hinv2.get_eq] at hget2
        have hx2 : x ∈ qs.map Prod.fst := by
          by_contra hmem
          rw [hb] at hget2
          rw [lookupLast_eq_none_iff.mpr hmem] at hget2
          cases hget2
        rw [hinv2.keys_eq]
        exact mem_firstKeysAux.mpr ⟨hx2, by simp⟩
      have hperm : List.Perm (buildMap ps).keysOf (buildMap qs).keysOf := by
        have hsp := List.subperm_of_subset (keysOf_nodup ps) hsub
        refine hsp.perm_of_length_le ?_
        show (buildMap qs).keysOf.length ≤ (buildMap ps).keysOf.length
        rw [keysOf, keysOf, List.length_map, List.length_map]
        exact Nat.le_of_eq hlen.symm
      intro k
      by_cases hk : k ∈ ps.map Prod.fst
      · have hk1 : k ∈ (buildMap ps).keysOf := by
          rw [hinv1.keys_eq]
          exact mem_firstKeysAux.mpr ⟨hk, by simp⟩
        obtain ⟨n, hn, hb⟩ := List.mem_map.mp hk1
        obtain ⟨j, hj⟩ := List.getElem?_of_mem hn
        have hv1 : lookupLast ps k = some n.value := by
          rw [← hb]
          exact hinv1.values_eq j n hj
        have hv2 := hall n hn
        rw [hinv2.get_eq, hb] at hv2
        rw [hv1, hv2]
      · have hk2 : k ∉ qs.map Prod.fst := by
          intro hmem
          apply hk
          have hkq : k ∈ (buildMap qs).keysOf := by
            rw [hinv2.keys_eq]
            exact mem_firstKeysAux.mpr ⟨hmem, by simp⟩
          have hkp : k ∈ (buildMap ps).keysOf := hperm.mem_iff.mpr hkq
          rw [hinv1.keys_eq] at hkp
          exact (mem_firstKeysAux.mp hkp).1
        rw [lookupLast_eq_none_iff.mpr hk, lookupLast_eq_none_iff.mpr hk2]
    · rintro ⟨hlen, hfun⟩
      refine ⟨hlen, ?_⟩
      intro n hn
      obtain ⟨j, hj⟩ := List.getElem?_of_mem hn
      have hv1 := hinv1.values_eq j n hj
      rw [hinv2.get_eq, ← hfun]
      exact hv1
  refine ⟨main, ?_⟩
  intro a b x y hab
  rw [main]
  constructor
  · show (buildMap [(a, x), (b, y)]).store.length
      = (buildMap [(b, y), (a, x)]).store.length
    have e1 : (buildMap [(a, x), (b, y)] : StrMap V).store.length
        = (buildMap [(a, x), (b, y)] : StrMap V).keysOf.length := by
      rw [keysOf, List.length_map]
    have e2 : (buildMap [(b, y), (a, x)] : StrMap V).store.length
        = (buildMap [(b, y), (a, x)] : StrMap V).keysOf.length := by
      rw [keysOf, List.length_map]
    rw [e1, e2, (buildInv_buildMap _).keys_eq, (buildInv_buildMap _).keys_eq]
    show (firstKeysAux [] [a, b]).length = (firstKeysAux [] [b, a]).length
    rw [firstKeys_pair hab, firstKeys_pair (Ne.symm hab)]
    rfl
  · intro k
    by_cases hka : k = a
    · subst hka
      have h1 : ¬b = k := fun he => hab he.symm
      simp [lookupLast, h1]
    · by_cases hkb : k = b
      · subst hkb
        have h1 : ¬a = k := fun he => hka he.symm
        simp [lookupLast, h1]
      · have h1 : ¬a = k := fun he => hka he.symm
        have h2 : ¬b = k := fun he => hkb he.symm
        simp [lookupLast, h1, h2]

/-- C7: indexed access on an `Object` never fails: read indexing an absent
key yields the null value rather than an error, and write indexing inserts
a null value under an absent key and returns a reference to that stored
value; on a present key both return the stored value, and write indexing
leaves the map unchanged. -/
theorem claim_C7_index_never_fails (ps : List (Bytes × JsonValue)) (k : Bytes) :
    (lookupLast ps k = none →
      Object.indexRead (buildMap ps) k = JsonValue.Null ∧
      (Object.indexWrite (buildMap ps) k).2 = JsonValue.Null ∧
      ((Object.indexWrite (buildMap ps) k).1).get k = some JsonValue.Null) ∧
    (∀ v : JsonValue, lookupLast ps k = some v →
      Object.indexRead (buildMap ps) k = v ∧
      Object.indexWrite (buildMap ps) k = (buildMap ps, v)) := by
  have hinv := buildInv_buildMap ps
  constructor
  · intro hnone
    have hget : (buildMap ps).get k = none := by rw [hinv.get_eq]; exact hnone
    have hgm : (buildMap ps).get_mut k = none := by
      rw [get_mut_eq_get]; exact hget
    have hw : Object.indexWrite (buildMap ps) k =
        ((buildMap ps).insert k JsonValue.Null, JsonValue.Null) := by
      unfold Object.indexWrite
      rw [hgm]
    refine ⟨?_, ?_, ?_⟩
    · unfold Object.indexRead
      rw [hget]
    · rw [hw]
    · rw [hw]
      have hinv' := buildInv_insert hinv k JsonValue.Null
      show ((buildMap ps).insert k JsonValue.Null).get k = _
      rw [hinv'.get_eq, lookupLast_append, if_pos rfl]
  · intro v hv
    have hget : (buildMap ps).get k = some v := by rw [hinv.get_eq]; exact hv
    have hgm : (buildMap ps).get_mut k = some v := by
      rw [get_mut_eq_get]; exact hget
    refine ⟨?_, ?_⟩
    · unfold Object.indexRead
      rw [hget]
    · unfold Object.indexWrite
      rw [hgm]

/-- C9: serializing an empty keyed collection emits exactly `{}` and an
empty sequence exactly `[]`, with nothing between the brackets (no
newline or indentation), in pretty mode as well as compact mode. -/
theorem claim_C9_empty_containers {α : Type} (cfg : GenCfg)
    (hcap : cfg.cap = none) (gen_item : α → GenM Unit) (s : GenState) :
    generate_array cfg gen_item ([] : List α) s =
      .ok ((), { s with out := s.out ++ [91, 93] }) ∧
    generate_object cfg gen_item ([] : List (Bytes × α)) s =
      .ok ((), { s with out := s.out ++ [123, 125] }) := by
  obtain ⟨spaces, cap⟩ := cfg
  simp only at hcap
  subst hcap
  constructor
  · have h : generate_array { spaces := spaces, cap := none } gen_item ([] : List α) s
        = .ok ((), { s with out := s.out ++ [91] ++ [93] }) := rfl
    rw [h]
    simp
  · have h : generate_object { spaces := spaces, cap := none } gen_item
        ([] : List (Bytes × α)) s
        = .ok ((), { s with out := s.out ++ [123] ++ [125] }) := rfl
    rw [h]
    simp

namespace Writer

theorem valueHole_of_valuePos {S : List BCtx} (h : valuePos S = true) :
    ValueHole S := by
  cases S with
  | nil => trivial
  | cons c rest => cases c <;> first | trivial | simp [valuePos] at h

theorem valuePos_of_valueHole {S : List BCtx} (h : ValueHole S) :
    valuePos S = true := by
  cases S with
  | nil => rfl
  | cons c rest => cases c <;> first | rfl | exact absurd h (by simp [ValueHole])

theorem jsonText_close_obj {c : BCtx} {frame : Bytes}
    (hc : c = BCtx.objEmpty ∨ c = BCtx.objNonEmpty) (hf : Frame c frame) :
    JsonText (frame ++ [125]) := by
  rcases hc with rfl | rfl
  · rw [show frame = [123] from hf]
    exact JsonText.objEmpty
  · obtain ⟨b, hb, rfl⟩ := hf
    rw [List.cons_append]
    exact JsonText.objNonEmpty hb

theorem jsonText_close_arr {c : BCtx} {frame : Bytes}
    (hc : c = BCtx.arrEmpty ∨ c = BCtx.arrNonEmpty) (hf : Frame c frame) :
    JsonText (frame ++ [93]) := by
  rcases hc with rfl | rfl
  · rw [show frame = [91] from hf]
    exact JsonText.arrEmpty
  · obtain ⟨b, hb, rfl⟩ := hf
    rw [List.cons_append]
    exact JsonText.arrNonEmpty hb

/-- Handing a completed value (its `before_value` comma already emitted) to
the enclosing context preserves the output decomposition, or finishes the
document with grammatical text. -/
theorem deliver_ok {S : List BCtx} {out val : Bytes} (hS : PartialOut S out)
    (hvp : valuePos S = true) (hv : JsonText val) :
    BResultOk (deliver (out ++ beforeValue S ++ val) S) := by
  cases S with
  | nil =>
    rw [show out = [] from hS]
    show JsonText ([] ++ beforeValue ([] : List BCtx) ++ val)
    simpa [beforeValue] using hv
  | cons c rest =>
    cases c with
    | objValue =>
      obtain ⟨pre, frame, hout, hframe, hrest, hhole⟩ := hS
      obtain ⟨pfx, k, hfeq, hpfx⟩ := hframe
      subst hfeq
      subst hout
      show PartialOut (BCtx.objNonEmpty :: rest) _
      refine ⟨pre, 123 :: (pfx ++ Gen.strLit k ++ [58] ++ val), ?_, ?_, hrest, hhole⟩
      · simp [beforeValue]
      · show Frame BCtx.objNonEmpty _
        rcases hpfx with rfl | ⟨b, hb, rfl⟩
        · exact ⟨Gen.strLit k ++ [58] ++ val, ObjItems.single k hv, by simp⟩
        · exact ⟨b ++ [44] ++ Gen.strLit k ++ [58] ++ val,
            ObjItems.snoc k hb hv, by simp⟩
    | arrEmpty =>
      obtain ⟨pre, frame, hout, hframe, hrest, hhole⟩ := hS
      rw [show frame = [91] from hframe] at hout
      subst hout
      show PartialOut (BCtx.arrNonEmpty :: rest) _
      refine ⟨pre, 91 :: val, ?_, ?_, hrest, hhole⟩
      · simp [beforeValue]
      · exact ⟨val, ArrItems.single hv, rfl⟩
    | arrNonEmpty =>
      obtain ⟨pre, frame, hout, hframe, hrest, hhole⟩ := hS
      obtain ⟨b, hb, rfl⟩ := hframe
      subst hout
      show PartialOut (BCtx.arrNonEmpty :: rest) _
      refine ⟨pre, 91 :: (b ++ [44] ++ val), ?_, ?_, hrest, hhole⟩
      · simp [beforeValue]
      · exact ⟨b ++ [44] ++ val, ArrItems.snoc hb hv, rfl⟩
    | objEmpty => simp [valuePos] at hvp
    | objNonEmpty => simp [valuePos] at hvp

/-- Every builder call preserves the invariant (or finishes with a
grammatical document, or is rejected by the typestate API). -/
theorem step_ok {s : BState} (h : PartialOut s.stack s.out) (op : BOp) :
    BResultOk (step s op) := by
  obtain ⟨out, stack⟩ := s
  simp only at h
  cases op with
  | startObj =>
    by_cases hvp : valuePos stack
    · simp only [step, if_pos hvp]
      exact ⟨out, [123], rfl, rfl, h, valueHole_of_valuePos hvp⟩
    · simp only [step, if_neg hvp]
      trivial
  | startArr =>
    by_cases hvp : valuePos stack
    · simp only [step, if_pos hvp]
      exact ⟨out, [91], rfl, rfl, h, valueHole_of_valuePos hvp⟩
    · simp only [step, if_neg hvp]
      trivial
  | value v =>
    by_cases hvp : valuePos stack
    · simp only [step, if_pos hvp]
      exact deliver_ok h hvp (JsonText.scalar v)
    · simp only [step, if_neg hvp]
      trivial
  | key k =>
    cases stack with
    | nil => trivial
    | cons c rest =>
      cases c with
      | objEmpty =>
        obtain ⟨pre, frame, hout, hframe, hrest, hhole⟩ := h
        rw [show frame = [123] from hframe] at hout
        subst hout
        show PartialOut (BCtx.objValue :: rest) _
        refine ⟨pre, 123 :: (Gen.strLit k ++ [58]), ?_, ?_, hrest, hhole⟩
        · simp
        · exact ⟨[], k, by simp, Or.inl rfl⟩
      | objNonEmpty =>
        obtain ⟨pre, frame, hout, hframe, hrest, hhole⟩ := h
        obtain ⟨b, hb, rfl⟩ := hframe
        subst hout
        show PartialOut (BCtx.objValue :: rest) _
        refine ⟨pre, 123 :: (b ++ [44] ++ Gen.strLit k ++ [58]), ?_, ?_, hrest, hhole⟩
        · simp
        · exact ⟨b ++ [44], k, by simp, Or.inr ⟨b, hb, rfl⟩⟩
      | objValue => trivial
      | arrEmpty => trivial
      | arrNonEmpty => trivial
  | close =>
    cases stack with
    | nil => trivial
    | cons c rest =>
      cases c with
      | objEmpty =>
        obtain ⟨pre, frame, hout, hframe, hrest, hhole⟩ := h
        have hshape : out ++ [125] = pre ++ beforeValue rest ++ (frame ++ [125]) := by
          subst hout
          simp
        show BResultOk (deliver (out ++ [125]) rest)
        rw [hshape]
        exact deliver_ok hrest (valuePos_of_valueHole hhole)
          (jsonText_close_obj (Or.inl rfl) hframe)
      | objNonEmpty =>
        obtain ⟨pre, frame, hout, hframe, hrest, hhole⟩ := h
        have hshape : out ++ [125] = pre ++ beforeValue rest ++ (frame ++ [125]) := by
          subst hout
          simp
        show BResultOk (deliver (out ++ [125]) rest)
        rw [hshape]
        exact deliver_ok hrest (valuePos_of_valueHole hhole)
          (jsonText_close_obj (Or.inr rfl) hframe)
      | arrEmpty =>
        obtain ⟨pre, frame, hout, hframe, hrest, hhole⟩ := h
        have hshape : out ++ [93] = pre ++ beforeValue rest ++ (frame ++ [93]) := by
          subst hout
          simp
        show BResultOk (deliver (out ++ [93]) rest)
        rw [hshape]
        exact deliver_ok hrest (valuePos_of_valueHole hhole)
          (jsonText_close_arr (Or.inl rfl) hframe)
      | arrNonEmpty =>
        obtain ⟨pre, frame, hout, hframe, hrest, hhole⟩ := h
        have hshape : out ++ [93] = pre ++ beforeValue rest ++ (frame ++ [93]) := by
          subst hout
          simp
        show BResultOk (deliver (out ++ [93]) rest)
        rw [hshape]
        exact deliver_ok hrest (valuePos_of_valueHole hhole)
          (jsonText_close_arr (Or.inr rfl) hframe)
      | objValue => trivial

/-- A builder session that runs to completion emits grammatical JSON. -/
theorem steps_sound : ∀ (ops : List BOp) (s : BState) (out : Bytes),
    PartialOut s.stack s.out → steps s ops = .done out → JsonText out := by
  intro ops
  induction ops with
  | nil =>
    intro s out h hs
    simp [steps] at hs
  | cons op ops ih =>
    intro s out h hs
    rw [steps] at hs
    cases hstep : step s op with
    | mid s' =>
      rw [hstep] at hs
      refine ih s' out ?_ hs
      have hok := step_ok h op
      rwa [hstep] at hok
    | done o =>
      rw [hstep] at hs
      have hs2 : (if ops.isEmpty then BResult.done o else BResult.reject)
          = BResult.done out := hs
      by_cases hops : ops.isEmpty
      · rw [if_pos hops] at hs2
        cases hs2
        have hok := step_ok h op
        rwa [hstep] at hok
      · rw [if_neg hops] at hs2
        cases hs2
    | reject =>
      rw [hstep] at hs
      cases hs

end Writer

/-- C8: every operation sequence the Fluent Builder's typestates permit
produces grammatical (hence balanced) JSON text; the compact sequence
`object().key("a").value(1).key("b").value(2).close()` yields exactly
`{"a":1,"b":2}`; and in an array the first value written from the
empty-array state is not preceded by a comma while every subsequent value
is. -/
theorem claim_C8_builder_balanced :
    (∀ (ops : List Writer.BOp) (out : Bytes),
      Writer.run ops = .done out → Writer.JsonText out) ∧
    (Writer.run [.startObj, .key [97], .value (.num ⟨[49]⟩), .key [98],
        .value (.num ⟨[50]⟩), .close] =
      .done [123, 34, 97, 34, 58, 49, 44, 34, 98, 34, 58, 50, 125]) ∧
    (∀ (out : Bytes) (r : List Writer.BCtx) (v : Writer.BVal),
      Writer.step ⟨out, .arrEmpty :: r⟩ (.value v) =
        .mid ⟨out ++ Writer.bvalOut v, .arrNonEmpty :: r⟩) ∧
    (∀ (out : Bytes) (r : List Writer.BCtx) (v : Writer.BVal),
      Writer.step ⟨out, .arrNonEmpty :: r⟩ (.value v) =
        .mid ⟨out ++ [44] ++ Writer.bvalOut v, .arrNonEmpty :: r⟩) := by
  refine ⟨?_, ?_, ?_, ?_⟩
  · intro ops out h
    exact Writer.steps_sound ops ⟨[], []⟩ out rfl h
  · decide
  · intro out r v
    simp [Writer.step, Writer.valuePos, Writer.beforeValue, Writer.deliver]
  · intro out r v
    simp [Writer.step, Writer.valuePos, Writer.beforeValue, Writer.deliver]

/-! ## Lemmas for the error-propagation claim -/

theorem write_buffer_ok (sp : Option Nat) (bytes : Bytes) (s : GenState) :
    Gen.write ⟨sp, none⟩ bytes s = .ok ((), { s with out := s.out ++ bytes }) :=
  rfl

theorem totalGen_bind {α β : Type} {m : GenM α} {f : α → GenM β}
    (hm : TotalGen m) (hf : ∀ a, TotalGen (f a)) : TotalGen (m >>= f) := by
  intro s
  obtain ⟨a, s', hm'⟩ := hm s
  obtain ⟨b, s'', hf'⟩ := hf a s'
  refine ⟨b, s'', ?_⟩
  show (match m s with
    | .ok (a, s') => f a s'
    | .error e => .error e) = Except.ok (b, s'')
  rw [hm']
  exact hf'

theorem totalGen_write (sp : Option Nat) (bytes : Bytes) :
    TotalGen (Gen.write ⟨sp, none⟩ bytes) :=
  fun s => ⟨(), { s with out := s.out ++ bytes }, rfl⟩

theorem totalGen_write_char (sp : Option Nat) (b : Nat) :
    TotalGen (Gen.write_char ⟨sp, none⟩ b) :=
  totalGen_write sp [b]

theorem totalGen_write_str (sp : Option Nat) (str : Bytes) :
    TotalGen (Gen.write_str ⟨sp, none⟩ str) :=
  totalGen_write sp (Gen.strLit str)

theorem totalGen_write_min (sp : Option Nat) (slice : Bytes) (b : Nat) :
    TotalGen (Gen.write_min ⟨sp, none⟩ slice b) := by
  cases sp with
  | none => exact totalGen_write none [b]
  | some u => exact totalGen_write (some u) slice

theorem totalGen_new_line (sp : Option Nat) : TotalGen (Gen.new_line ⟨sp, none⟩) := by
  cases sp with
  | none => exact fun s => ⟨(), s, rfl⟩
  | some u => exact fun s => ⟨(), _, rfl⟩

theorem totalGen_indent (sp : Option Nat) : TotalGen (Gen.indent ⟨sp, none⟩) := by
  cases sp with
  | none => exact fun s => ⟨(), s, rfl⟩
  | some u => exact fun s => ⟨(), _, rfl⟩

theorem totalGen_dedent (sp : Option Nat) : TotalGen (Gen.dedent ⟨sp, none⟩) := by
  cases sp with
  | none => exact fun s => ⟨(), s, rfl⟩
  | some u => exact fun s => ⟨(), _, rfl⟩

theorem totalGen_generate_array_rest {α : Type} (sp : Option Nat)
    (f : α → GenM Unit) (hf : ∀ x, TotalGen (f x)) :
    ∀ items : List α, TotalGen (generate_array_rest ⟨sp, none⟩ f items) := by
  intro items
  induction items with
  | nil => exact fun s => ⟨(), s, rfl⟩
  | cons x xs ih =>
    refine totalGen_bind (totalGen_write_char sp 44) fun _ => ?_
    refine totalGen_bind (totalGen_new_line sp) fun _ => ?_
    exact totalGen_bind (hf x) fun _ => ih

theorem totalGen_generate_array {α : Type} (sp : Option Nat)
    (f : α → GenM Unit) (hf : ∀ x, TotalGen (f x)) (items : List α) :
    TotalGen (generate_array ⟨sp, none⟩ f items) := by
  cases items with
  | nil =>
    exact totalGen_bind (totalGen_write_char sp 91) fun _ =>
      totalGen_write_char sp 93
  | cons x xs =>
    refine totalGen_bind (totalGen_write_char sp 91) fun _ => ?_
    refine totalGen_bind (totalGen_indent sp) fun _ => ?_
    refine totalGen_bind (totalGen_new_line sp) fun _ => ?_
    refine totalGen_bind (hf x) fun _ => ?_
    refine totalGen_bind (totalGen_generate_array_rest sp f hf xs) fun _ => ?_
    refine totalGen_bind (totalGen_dedent sp) fun _ => ?_
    exact totalGen_bind (totalGen_new_line sp) fun _ => totalGen_write_char sp 93

theorem totalGen_generate_object_rest {α : Type} (sp : Option Nat)
    (f : α → GenM Unit) (hf : ∀ x, TotalGen (f x)) :
    ∀ items : List (Bytes × α), TotalGen (generate_object_rest ⟨sp, none⟩ f items) := by
  intro items
  induction items with
  | nil => exact fun s => ⟨(), s, rfl⟩
  | cons p xs ih =>
    obtain ⟨key, value⟩ := p
    refine totalGen_bind (totalGen_write_char sp 44) fun _ => ?_
    refine totalGen_bind (totalGen_new_line sp) fun _ => ?_
    refine totalGen_bind (totalGen_write_str sp key) fun _ => ?_
    refine totalGen_bind (totalGen_write_min sp [58, 32] 58) fun _ => ?_
    exact totalGen_bind (hf value) fun _ => ih

theorem totalGen_generate_object {α : Type} (sp : Option Nat)
    (f : α → GenM Unit) (hf : ∀ x, TotalGen (f x)) (items : List (Bytes × α)) :
    TotalGen (generate_object ⟨sp, none⟩ f items) := by
  cases items with
  | nil =>
    exact totalGen_bind (totalGen_write_char sp 123) fun _ =>
      totalGen_write_char sp 125
  | cons p xs =>
    obtain ⟨key, value⟩ := p
    refine totalGen_bind (totalGen_write_char sp 123) fun _ => ?_
    refine totalGen_bind (totalGen_indent sp) fun _ => ?_
    refine totalGen_bind (totalGen_new_line sp) fun _ => ?_
    refine totalGen_bind (totalGen_write_str sp key) fun _ => ?_
    refine totalGen_bind (totalGen_write_min sp [58, 32] 58) fun _ => ?_
    refine totalGen_bind (hf value) fun _ => ?_
    refine totalGen_bind (totalGen_generate_object_rest sp f hf xs) fun _ => ?_
    refine totalGen_bind (totalGen_dedent sp) fun _ => ?_
    exact totalGen_bind (totalGen_new_line sp) fun _ => totalGen_write_char sp 125

theorem sameOnOk_bind {α β : Type} {mS mB : GenM α} {fS fB : α → GenM β}
    (h1 : SameOnOk mS mB) (h2 : ∀ a, SameOnOk (fS a) (fB a)) :
    SameOnOk (mS >>= fS) (mB >>= fB) := by
  intro s b s' h
  have h' : (match mS s with
      | .ok (x, t) => fS x t
      | .error e => .error e) = Except.ok (b, s') := h
  cases hm : mS s with
  | error e => rw [hm] at h'; cases h'
  | ok p =>
    obtain ⟨x, t⟩ := p
    rw [hm] at h'
    show (match mB s with
      | .ok (x, t) => fB x t
      | .error e => .error e) = Except.ok (b, s')
    rw [h1 s x t hm]
    exact h2 x t b s' h'

theorem sameOnOk_write (sp : Option Nat) (c : Nat) (bytes : Bytes) :
    SameOnOk (Gen.write ⟨sp, some c⟩ bytes) (Gen.write ⟨sp, none⟩ bytes) := by
  intro s a s' h
  have h2 : (if s.out.length + bytes.length ≤ c then
      (Except.ok ((), { s with out := s.out ++ bytes })
        : Except SinkErr (Unit × GenState))
    else .error .ioError) = .ok (a, s') := h
  show Except.ok ((), { s with out := s.out ++ bytes }) = Except.ok (a, s')
  by_cases hfit : s.out.length + bytes.length ≤ c
  · rw [if_pos hfit] at h2
    exact h2
  · rw [if_neg hfit] at h2
    cases h2

theorem sameOnOk_write_char (sp : Option Nat) (c : Nat) (b : Nat) :
    SameOnOk (Gen.write_char ⟨sp, some c⟩ b) (Gen.write_char ⟨sp, none⟩ b) :=
  sameOnOk_write sp c [b]

theorem sameOnOk_write_str (sp : Option Nat) (c : Nat) (str : Bytes) :
    SameOnOk (Gen.write_str ⟨sp, some c⟩ str) (Gen.write_str ⟨sp, none⟩ str) :=
  sameOnOk_write sp c (Gen.strLit str)

theorem sameOnOk_write_min (sp : Option Nat) (c : Nat) (slice : Bytes) (b : Nat) :
    SameOnOk (Gen.write_min ⟨sp, some c⟩ slice b) (Gen.write_min ⟨sp, none⟩ slice b) := by
  cases sp with
  | none => exact sameOnOk_write none c [b]
  | some u => exact sameOnOk_write (some u) c slice

theorem sameOnOk_new_line (sp : Option Nat) (c : Nat) :
    SameOnOk (Gen.new_line ⟨sp, some c⟩) (Gen.new_line ⟨sp, none⟩) := by
  cases sp with
  | none => exact fun s a s' h => h
  | some u =>
    intro s a s' h
    exact sameOnOk_write (some u) c _ s a s' h

theorem sameOnOk_indent (sp : Option Nat) (c : Nat) :
    SameOnOk (Gen.indent ⟨sp, some c⟩) (Gen.indent ⟨sp, none⟩) := by
  cases sp <;> exact fun s a s' h => h

theorem sameOnOk_dedent (sp : Option Nat) (c : Nat) :
    SameOnOk (Gen.dedent ⟨sp, some c⟩) (Gen.dedent ⟨sp, none⟩) := by
  cases sp <;> exact fun s a s' h => h

theorem sameOnOk_generate_array_rest {α : Type} (sp : Option Nat) (c : Nat)
    {fS fB : α → GenM Unit} (hf : ∀ x, SameOnOk (fS x) (fB x)) :
    ∀ items : List α,
      SameOnOk (generate_array_rest ⟨sp, some c⟩ fS items)
        (generate_array_rest ⟨sp, none⟩ fB items) := by
  intro items
  induction items with
  | nil => exact fun s a s' h => h
  | cons x xs ih =>
    refine sameOnOk_bind (sameOnOk_write_char sp c 44) fun _ => ?_
    refine sameOnOk_bind (sameOnOk_new_line sp c) fun _ => ?_
    exact sameOnOk_bind (hf x) fun _ => ih

theorem sameOnOk_generate_array {α : Type} (sp : Option Nat) (c : Nat)
    {fS fB : α → GenM Unit} (hf : ∀ x, SameOnOk (fS x) (fB x)) (items : List α) :
    SameOnOk (generate_array ⟨sp, some c⟩ fS items)
      (generate_array ⟨sp, none⟩ fB items) := by
  cases items with
  | nil =>
    exact sameOnOk_bind (sameOnOk_write_char sp c 91) fun _ =>
      sameOnOk_write_char sp c 93
  | cons x xs =>
    refine sameOnOk_bind (sameOnOk_write_char sp c 91) fun _ => ?_
    refine sameOnOk_bind (sameOnOk_indent sp c) fun _ => ?_
    refine sameOnOk_bind (sameOnOk_new_line sp c) fun _ => ?_
    refine sameOnOk_bind (hf x) fun _ => ?_
    refine sameOnOk_bind (sameOnOk_generate_array_rest sp c hf xs) fun _ => ?_
    refine sameOnOk_bind (sameOnOk_dedent sp c) fun _ => ?_
    exact sameOnOk_bind (sameOnOk_new_line sp c) fun _ => sameOnOk_write_char sp c 93

theorem sameOnOk_generate_object_rest {α : Type} (sp : Option Nat) (c : Nat)
    {fS fB : α → GenM Unit} (hf : ∀ x, SameOnOk (fS x) (fB x)) :
    ∀ items : List (Bytes × α),
      SameOnOk (generate_object_rest ⟨sp, some c⟩ fS items)
        (generate_object_rest ⟨sp, none⟩ fB items) := by
  intro items
  induction items with
  | nil => exact fun s a s' h => h
  | cons p xs ih =>
    obtain ⟨key, value⟩ := p
    refine sameOnOk_bind (sameOnOk_write_char sp c 44) fun _ => ?_
    refine sameOnOk_bind (sameOnOk_new_line sp c) fun _ => ?_
    refine sameOnOk_bind (sameOnOk_write_str sp c key) fun _ => ?_
    refine sameOnOk_bind (sameOnOk_write_min sp c [58, 32] 58) fun _ => ?_
    exact sameOnOk_bind (hf value) fun _ => ih

theorem sameOnOk_generate_object {α : Type} (sp : Option Nat) (c : Nat)
    {fS fB : α → GenM Unit} (hf : ∀ x, SameOnOk (fS x) (fB x))
    (items : List (Bytes × α)) :
    SameOnOk (generate_object ⟨sp, some c⟩ fS items)
      (generate_object ⟨sp, none⟩ fB items) := by
  cases items with
  | nil =>
    exact sameOnOk_bind (sameOnOk_write_char sp c 123) fun _ =>
      sameOnOk_write_char sp c 125
  | cons p xs =>
    obtain ⟨key, value⟩ := p
    refine sameOnOk_bind (sameOnOk_write_char sp c 123) fun _ => ?_
    refine sameOnOk_bind (sameOnOk_indent sp c) fun _ => ?_
    refine sameOnOk_bind (sameOnOk_new_line sp c) fun _ => ?_
    refine sameOnOk_bind (sameOnOk_write_str sp c key) fun _ => ?_
    refine sameOnOk_bind (sameOnOk_write_min sp c [58, 32] 58) fun _ => ?_
    refine sameOnOk_bind (hf value) fun _ => ?_
    refine sameOnOk_bind (sameOnOk_generate_object_rest sp c hf xs) fun _ => ?_
    refine sameOnOk_bind (sameOnOk_dedent sp c) fun _ => ?_
    exact sameOnOk_bind (sameOnOk_new_line sp c) fun _ => sameOnOk_write_char sp c 125

/-- C10: every write operation of the Generator and of the Fluent Builder
either succeeds or surfaces the single output-sink failure kind. On the
in-memory `DumpGenerator` the builder is hardwired to, every primitive
write succeeds outright (so no builder transition has a failure to
discard), and every `generate_array`/`generate_object` run over such a
sink succeeds; over a stream sink, a run either fails with the single
`ioError` kind or succeeds having produced exactly the output of the
infallible run --- no underlying write failure is ever swallowed. -/
theorem claim_C10_error_propagation :
    (∀ (sp : Option Nat) (bytes : Bytes) (s : GenState),
      Gen.write ⟨sp, none⟩ bytes s = .ok ((), { s with out := s.out ++ bytes })) ∧
    (∀ {α : Type} (sp : Option Nat) (f : α → GenM Unit),
      (∀ x, TotalGen (f x)) → ∀ items : List α,
        TotalGen (generate_array ⟨sp, none⟩ f items)) ∧
    (∀ {α : Type} (sp : Option Nat) (f : α → GenM Unit),
      (∀ x, TotalGen (f x)) → ∀ items : List (Bytes × α),
        TotalGen (generate_object ⟨sp, none⟩ f items)) ∧
    (∀ {α : Type} (sp : Option Nat) (c : Nat) (fS fB : α → GenM Unit),
      (∀ x, SameOnOk (fS x) (fB x)) → ∀ (items : List (Bytes × α)) (s : GenState),
        (∃ s', generate_object ⟨sp, some c⟩ fS items s = .ok ((), s') ∧
          generate_object ⟨sp, none⟩ fB items s = .ok ((), s')) ∨
        generate_object ⟨sp, some c⟩ fS items s = .error .ioError) := by
  refine ⟨write_buffer_ok, ?_, ?_, ?_⟩
  · intro α sp f hf items
    exact totalGen_generate_array sp f hf items
  · intro α sp f hf items
    exact totalGen_generate_object sp f hf items
  · intro α sp c fS fB hf items s
    cases hrun : generate_object ⟨sp, some c⟩ fS items s with
    | ok p =>
      obtain ⟨a, s'⟩ := p
      cases a
      exact Or.inl ⟨s', rfl, sameOnOk_generate_object sp c hf items s () s' hrun⟩
    | error e =>
      cases e
      exact Or.inr rfl

/-! ## Witnesses -/

/-- Witness for C1: overwriting the already-present key `[1]` in a
two-entry map keeps the key order and length and stores the new value. -/
theorem claim_C1_insertion_order_witness :
    ((buildMap [([1], 10), ([2], 20)] : StrMap Nat).insert [1] 30).keysOf
      = (buildMap [([1], 10), ([2], 20)] : StrMap Nat).keysOf ∧
    ((buildMap [([1], 10), ([2], 20)] : StrMap Nat).insert [1] 30).len
      = (buildMap [([1], 10), ([2], 20)] : StrMap Nat).len ∧
    ((buildMap [([1], 10), ([2], 20)] : StrMap Nat).insert [1] 30).get [1]
      = some 30 :=
  (claim_C1_insertion_order [([1], 10), ([2], 20)]).2 [1] 30 (by decide)

/-- Witness for C3: removing the present key `[2]` from a three-entry map. -/
theorem claim_C3_remove_witness :
    ((buildMap [([1], 10), ([2], 20), ([3], 30)] : StrMap Nat).remove [2]).1
        = some 20 ∧
      ((buildMap [([1], 10), ([2], 20), ([3], 30)] : StrMap Nat).remove [2]).2.get [2]
        = none ∧
      ((buildMap [([1], 10), ([2], 20), ([3], 30)] : StrMap Nat).remove [2]).2.len + 1
        = (buildMap [([1], 10), ([2], 20), ([3], 30)] : StrMap Nat).len ∧
      (∃ i : Nat,
        (buildMap [([1], 10), ([2], 20), ([3], 30)] : StrMap Nat).keysOf[i]?
            = some [2] ∧
          ((buildMap [([1], 10), ([2], 20), ([3], 30)] : StrMap Nat).remove [2]).2.keysOf
            = (buildMap [([1], 10), ([2], 20), ([3], 30)] : StrMap Nat).keysOf.eraseIdx i) :=
  (claim_C3_remove [([1], 10), ([2], 20), ([3], 30)] [2]).1 20 (by decide)

/-- Witness for C4: in a two-entry map the second node is connected to the
root at index `0`. -/
theorem claim_C4_structural_invariants_witness :
    Reach (buildMap [([1], 10), ([2], 20)] : StrMap Nat).store 0 1 :=
  (claim_C4_structural_invariants [([1], 10), ([2], 20)]).2.2.1 1 (by decide)

/-- Witness for C5: a 33-byte key, inserted first and followed by enough
inserts to grow and relocate the backing storage several times, still
resolves to its stored value. -/
theorem claim_C5_inline_and_heap_keys_witness :
    (buildMap [(List.replicate 33 7, 1), ([1], 2), ([2], 3), ([3], 4), ([4], 5)]
        : StrMap Nat).get (List.replicate 33 7)
      = lookupLast [(List.replicate 33 7, 1), ([1], 2), ([2], 3), ([3], 4), ([4], 5)]
          (List.replicate 33 7) :=
  (claim_C5_inline_and_heap_keys
      [(List.replicate 33 7, 1), ([1], 2), ([2], 3), ([3], 4), ([4], 5)]).2
    (List.replicate 33 7) (by decide)

/-- Witness for C6: the two insertion orders of `{[1]:10, [2]:20}` build
equal maps. -/
theorem claim_C6_order_independent_equality_witness :
    mapEq (buildMap [([1], 10), ([2], 20)] : StrMap Nat)
      (buildMap [([2], 20), ([1], 10)]) :=
  claim_C6_order_independent_equality.2 [1] [2] 10 20 (by decide)

/-- Witness for C7: reading and writing the absent key `[2]`. -/
theorem claim_C7_index_never_fails_witness :
    Object.indexRead (buildMap [([1], JsonValue.Null)]) [2] = JsonValue.Null ∧
    (Object.indexWrite (buildMap [([1], JsonValue.Null)]) [2]).2 = JsonValue.Null ∧
    ((Object.indexWrite (buildMap [([1], JsonValue.Null)]) [2]).1).get [2]
      = some JsonValue.Null :=
  (claim_C7_index_never_fails [([1], JsonValue.Null)] [2]).1 (by rfl)

/-- Witness for C8: the concrete builder session for `{"a":1,"b":2}` is a
complete run, so its output is grammatical JSON. -/
theorem claim_C8_builder_balanced_witness :
    Writer.JsonText [123, 34, 97, 34, 58, 49, 44, 34, 98, 34, 58, 50, 125] :=
  claim_C8_builder_balanced.1
    [.startObj, .key [97], .value (.num ⟨[49]⟩), .key [98],
      .value (.num ⟨[50]⟩), .close]
    [123, 34, 97, 34, 58, 49, 44, 34, 98, 34, 58, 50, 125] (by decide)

/-- Witness for C9: a pretty-mode buffer generator collapses empty
containers with no interior bytes. -/
theorem claim_C9_empty_containers_witness :
    generate_array { spaces := some 2, cap := none }
        (fun _ : Unit => (pure () : GenM Unit)) [] { out := [], depth := 0 } =
      .ok ((), { out := [91, 93], depth := 0 }) ∧
    generate_object { spaces := some 2, cap := none }
        (fun _ : Unit => (pure () : GenM Unit)) [] { out := [], depth := 0 } =
      .ok ((), { out := [123, 125], depth := 0 }) :=
  claim_C9_empty_containers { spaces := some 2, cap := none } rfl
    (fun _ : Unit => (pure () : GenM Unit)) { out := [], depth := 0 }

/-- Witness for C10: a stream-sink `generate_object` run on an empty member
list either fails with the single sink error or agrees with the buffer
run. -/
theorem claim_C10_error_propagation_witness :
    (∃ s', generate_object { spaces := some 2, cap := some 5 }
          (fun _ : Unit => (pure () : GenM Unit)) [] { out := [], depth := 0 }
        = .ok ((), s') ∧
      generate_object { spaces := some 2, cap := none }
          (fun _ : Unit => (pure () : GenM Unit)) [] { out := [], depth := 0 }
        = .ok ((), s')) ∨
    generate_object { spaces := some 2, cap := some 5 }
        (fun _ : Unit => (pure () : GenM Unit)) [] { out := [], depth := 0 }
      = .error .ioError :=
  claim_C10_error_propagation.2.2.2 (some 2) 5
    (fun _ : Unit => (pure () : GenM Unit)) (fun _ => (pure () : GenM Unit))
    (fun _ => fun s a s' h => h) [] { out := [], depth := 0 }

end JsonRust
